import Mathlib

/-!
Verification of the unit-conversion pipeline.

Shallow embedding of the conversion-graph construction, the transitive
closure pass, the consistency validator, the Oracle edge validation and
merge loop, the checkpointed resume logic, the duplicate detector and the
unit linker.  JavaScript numbers on the multiplier fields are modelled as
exact rationals (plus explicit NaN/Infinity markers at the untrusted Oracle
boundary); JS `Map` objects keyed by the template string
`fromUnitId → toUnitId` are modelled as partial maps keyed by the pair of
ids; `generateUUID()` (an external random-id source) is modelled as a
pair-keyed id supply passed in as a parameter, so that distinct runs draw
identical ids for identical pairs.
-/

/-- A measurement unit (`Unit` in `types/schemas`; renamed because `Unit`
is taken by Lean's unit type). -/
structure MepUnit where
  id : String
  symbol : String
  name : String
  abbreviations : List String
  unitGroupId : Option String
deriving DecidableEq, Repr

/-- A directed conversion edge (`ConversionEquation` in `types/schemas`). -/
structure ConversionEquation where
  id : String
  fromUnitId : String
  toUnitId : String
  multiplier : ℚ
  equation : String
  description : String
deriving DecidableEq, Repr

/-- The ordered pair identifying an equation, the dedup key used throughout
the code. -/
def convPair (c : ConversionEquation) : String × String :=
  (c.fromUnitId, c.toUnitId)

/-- A unit group (`UnitGroup` in `types/schemas`). -/
structure UnitGroup where
  id : String
  name : String
  description : String
  baseUnitId : Option String
  unitIds : List String
  conversions : List ConversionEquation
deriving DecidableEq, Repr

/-- The multiplier table of `generateCompleteConversions`: a JS `Map`
keyed by the `fromUnitId → toUnitId` string, modelled as a partial map on
the pair of ids. -/
def PairMap : Type := String × String → Option ℚ

def PairMap.empty : PairMap := fun _ => none

def PairMap.insert (m : PairMap) (k : String × String) (v : ℚ) : PairMap :=
  fun k' => if k' = k then some v else m k'

/-- First seeding loop of `generateCompleteConversions` (main.ts):
`multipliers.set(key, conv.multiplier)` for every existing conversion,
in list order (a later equation for the same pair overwrites an earlier
one, exactly as `Map.set` does). -/
def directPhase (existingConversions : List ConversionEquation) : PairMap :=
  existingConversions.foldl
    (fun m c => m.insert (c.fromUnitId, c.toUnitId) c.multiplier) PairMap.empty

/-- Second seeding loop: `multipliers.set(id→id, 1.0)` for every unit,
run after the direct seeding. -/
def seedPhase (units : List MepUnit)
    (existingConversions : List ConversionEquation) : PairMap :=
  units.foldl (fun m u => m.insert (u.id, u.id) 1)
    (directPhase existingConversions)

/-- Body of the triple loop: if `multiplier(i,k)` and `multiplier(k,j)`
are both defined and `(i,j)` is not yet present, set
`multiplier(i,j) = multiplier(i,k) * multiplier(k,j)`. -/
def floydStep (m : PairMap) (i k j : String) : PairMap :=
  match m (i, k), m (k, j) with
  | some a, some b => if (m (i, j)).isSome then m else m.insert (i, j) (a * b)
  | _, _ => m

/-- The triple loop of `generateCompleteConversions`:
`for k of units: for i of units: for j of units`. -/
def floydLoop (units : List MepUnit) (m : PairMap) : PairMap :=
  units.foldl
    (fun m k =>
      units.foldl
        (fun m i => units.foldl (fun m j => floydStep m i.id k.id j.id) m)
        m)
    m

/-- The completed multiplier table for a group. -/
def closureTable (units : List MepUnit)
    (existingConversions : List ConversionEquation) : PairMap :=
  floydLoop units (seedPhase units existingConversions)

/-- `generateCompleteConversions` (main.ts): returns the input unchanged
for fewer than two units; otherwise emits, for every ordered pair of
distinct units with a known multiplier, the already-persisted equation if
one exists (first match on the pair) and a freshly built equation
otherwise.  `uuid` stands in for `generateUUID()`. -/
def generateCompleteConversions (uuid : String → String → String)
    (units : List MepUnit)
    (existingConversions : List ConversionEquation) : List ConversionEquation :=
  if units.length < 2 then existingConversions
  else
    units.flatMap fun fromUnit =>
      units.filterMap fun toUnit =>
        if fromUnit.id = toUnit.id then none
        else
          match closureTable units existingConversions (fromUnit.id, toUnit.id) with
          | none => none
          | some m =>
            match existingConversions.find?
                (fun c => c.fromUnitId == fromUnit.id && c.toUnitId == toUnit.id) with
            | some existing => some existing
            | none =>
              some { id := uuid fromUnit.id toUnit.id
                     fromUnitId := fromUnit.id
                     toUnitId := toUnit.id
                     multiplier := m
                     equation := "x * " ++ toString m
                     description := fromUnit.symbol ++ " to " ++ toUnit.symbol }

/-- A fixed id supply used in concrete evaluations. -/
def uuid0 (f t : String) : String := "uuid-" ++ f ++ "-" ++ t

def unitA : MepUnit := ⟨"A", "A", "unit A", [], none⟩
def unitB : MepUnit := ⟨"B", "B", "unit B", [], none⟩
def unitC : MepUnit := ⟨"C", "C", "unit C", [], none⟩

def edgeAB : ConversionEquation := ⟨"e1", "A", "B", 2, "x * 2", "A to B"⟩
def edgeBC : ConversionEquation := ⟨"e2", "B", "C", 3, "x * 3", "B to C"⟩
def edgeBA : ConversionEquation := ⟨"e3", "B", "A", 1/2, "x * 0.5", "B to A"⟩
def edgeCB : ConversionEquation := ⟨"e4", "C", "B", 1/3, "x * 1/3", "C to B"⟩

/-- **C1.**  Over units A, B, C with direct edges A→B (×2) and B→C (×3)
only, the closure yields an edge A→C with multiplier 6; adding B→A (×1/2)
and C→B (×1/3) makes the yielded C→A edge carry multiplier 1/6. -/
theorem closure_example_transitive_multipliers :
    (∃ c ∈ generateCompleteConversions uuid0 [unitA, unitB, unitC]
        [edgeAB, edgeBC],
      c.fromUnitId = "A" ∧ c.toUnitId = "C" ∧ c.multiplier = 6) ∧
    (∃ c ∈ generateCompleteConversions uuid0 [unitA, unitB, unitC]
        [edgeAB, edgeBC, edgeBA, edgeCB],
      c.fromUnitId = "C" ∧ c.toUnitId = "A" ∧ c.multiplier = 1/6) := by
  with_unfolding_all decide

/-! ### Closure-engine toolbox: preservation, seeding, soundness -/

theorem PairMap.insert_apply (m : PairMap) (k : String × String) (v : ℚ)
    (k' : String × String) :
    m.insert k v k' = if k' = k then some v else m k' := rfl

/-- A fold whose step never discards an existing binding never discards a
binding. -/
theorem foldl_pairmap_preserve {α : Type} (f : PairMap → α → PairMap)
    (hf : ∀ (m : PairMap) (a : α) (p : String × String) (v : ℚ),
      m p = some v → f m a p = some v)
    (l : List α) (m : PairMap) (p : String × String) (v : ℚ)
    (h : m p = some v) : (l.foldl f m) p = some v := by
  induction l generalizing m with
  | nil => exact h
  | cons a l ih => exact ih _ (hf m a p v h)

/-- The body of the triple loop assigns a pair only when it is unset:
every existing binding survives one step. -/
theorem floydStep_preserve (m : PairMap) (i k j : String)
    (p : String × String) (v : ℚ) (h : m p = some v) :
    floydStep m i k j p = some v := by
  unfold floydStep
  cases hik : m (i, k) with
  | none => exact h
  | some a =>
    cases hkj : m (k, j) with
    | none => exact h
    | some b =>
      cases hij : (m (i, j)).isSome with
      | true => exact h
      | false =>
        show (m.insert (i, j) (a * b)) p = some v
        unfold PairMap.insert
        by_cases hp : p = (i, j)
        · subst hp; rw [h] at hij; cases hij
        · rw [if_neg hp]; exact h

/-- Bindings survive the whole triple loop: first assignment wins. -/
theorem floydLoop_preserve (units : List MepUnit) (m : PairMap)
    (p : String × String) (v : ℚ) (h : m p = some v) :
    floydLoop units m p = some v := by
  unfold floydLoop
  refine foldl_pairmap_preserve _ ?_ units m p v h
  intro m k p v h
  refine foldl_pairmap_preserve _ ?_ units m p v h
  intro m i p v h
  refine foldl_pairmap_preserve _ ?_ units m p v h
  intro m j p v h
  exact floydStep_preserve m i.id k.id j.id p v h

theorem floydLoop_isSome (units : List MepUnit) (m : PairMap)
    (p : String × String) (h : (m p).isSome) :
    ((floydLoop units m) p).isSome := by
  obtain ⟨v, hv⟩ := Option.isSome_iff_exists.mp h
  rw [floydLoop_preserve units m p v hv]; rfl

/-- A fold of plain inserts keeps every key that is already set. -/
theorem foldl_insert_isSome {α : Type} (key : α → String × String)
    (val : α → ℚ) (l : List α) (m : PairMap) (k : String × String)
    (h : (m k).isSome) :
    ((l.foldl (fun m a => m.insert (key a) (val a)) m) k).isSome := by
  induction l generalizing m with
  | nil => exact h
  | cons a l ih =>
    apply ih
    unfold PairMap.insert
    by_cases hk : k = key a <;> simp [hk, h]

/-- The identity-seeding loop ends with `multiplier(u,u) = 1` for every
unit it saw (and for any pair already bound to 1). -/
theorem identityFold_self (l : List MepUnit) (m : PairMap) (u : MepUnit)
    (h : u ∈ l ∨ m (u.id, u.id) = some 1) :
    (l.foldl (fun m w => m.insert (w.id, w.id) 1) m) (u.id, u.id) = some 1 := by
  induction l generalizing m with
  | nil =>
    rcases h with h | h
    · cases h
    · exact h
  | cons w l ih =>
    rw [List.foldl_cons]
    apply ih
    rcases h with h | h
    · rcases List.mem_cons.mp h with rfl | h
      · right; unfold PairMap.insert; rw [if_pos rfl]
      · left; exact h
    · right; unfold PairMap.insert
      by_cases hw : (u.id, u.id) = (w.id, w.id) <;> simp [hw, h]

/-- The identity-seeding loop writes only diagonal keys. -/
theorem identityFold_offdiag (l : List MepUnit) (m : PairMap)
    (p : String × String) (hp : p.1 ≠ p.2) :
    (l.foldl (fun m w => m.insert (w.id, w.id) 1) m) p = m p := by
  induction l generalizing m with
  | nil => rfl
  | cons w l ih =>
    rw [List.foldl_cons, ih]
    unfold PairMap.insert
    rw [if_neg]
    intro hq
    obtain ⟨a, b⟩ := p
    cases hq
    exact hp rfl

/-- A direct-seeding fold leaves keys that no listed equation carries
untouched. -/
theorem directFold_untouched (l : List ConversionEquation) (m : PairMap)
    (k : String × String) (hk : ∀ c ∈ l, convPair c ≠ k) :
    (l.foldl (fun m c => m.insert (convPair c) c.multiplier) m) k = m k := by
  induction l generalizing m with
  | nil => rfl
  | cons c l ih =>
    rw [List.foldl_cons, ih _ (fun c' hc' => hk c' (List.mem_cons_of_mem _ hc'))]
    unfold PairMap.insert
    rw [if_neg]
    intro hq
    exact hk c (List.mem_cons_self c l) (by rw [hq])

/-- With at most one equation per ordered pair, the direct seeding binds
each listed pair to its equation's multiplier. -/
theorem directFold_mem (l : List ConversionEquation) (m : PairMap)
    (e : ConversionEquation) (he : e ∈ l)
    (hnd : (l.map convPair).Nodup) :
    (l.foldl (fun m c => m.insert (convPair c) c.multiplier) m) (convPair e)
      = some e.multiplier := by
  induction l generalizing m with
  | nil => cases he
  | cons c l ih =>
    rw [List.foldl_cons]
    rw [List.map_cons, List.nodup_cons] at hnd
    rcases List.mem_cons.mp he with rfl | he
    · rw [directFold_untouched l _ _ ?_]
      · unfold PairMap.insert; rw [if_pos rfl]
      · intro c' hc' hEq
        exact hnd.1 (hEq ▸ List.mem_map_of_mem convPair hc')
    · exact ih _ he hnd.2

theorem directPhase_mem (existing : List ConversionEquation)
    (e : ConversionEquation) (he : e ∈ existing)
    (hnd : (existing.map convPair).Nodup) :
    directPhase existing (convPair e) = some e.multiplier :=
  directFold_mem existing PairMap.empty e he hnd

theorem directFold_isSome (l : List ConversionEquation) (m : PairMap)
    (e : ConversionEquation) (he : e ∈ l) :
    ((l.foldl (fun m c => m.insert (convPair c) c.multiplier) m) (convPair e)).isSome := by
  induction l generalizing m with
  | nil => cases he
  | cons c l ih =>
    rw [List.foldl_cons]
    rcases List.mem_cons.mp he with rfl | he
    · exact foldl_insert_isSome convPair (fun c => c.multiplier) l _ _
        (by unfold PairMap.insert; rw [if_pos rfl]; rfl)
    · exact ih _ he

theorem seedPhase_self (units : List MepUnit)
    (existing : List ConversionEquation) (u : MepUnit) (hu : u ∈ units) :
    seedPhase units existing (u.id, u.id) = some 1 :=
  identityFold_self units (directPhase existing) u (Or.inl hu)

theorem seedPhase_offdiag (units : List MepUnit)
    (existing : List ConversionEquation) (p : String × String)
    (hp : p.1 ≠ p.2) :
    seedPhase units existing p = directPhase existing p :=
  identityFold_offdiag units (directPhase existing) p hp

theorem seedPhase_isSome (units : List MepUnit)
    (existing : List ConversionEquation) (e : ConversionEquation)
    (he : e ∈ existing) :
    (seedPhase units existing (convPair e)).isSome := by
  unfold seedPhase
  exact foldl_insert_isSome (fun w => (w.id, w.id)) (fun _ => 1) units _ _
    (directFold_isSome existing PairMap.empty e he)

/-- Composition paths in the direct conversion graph (self loops carry 1).
Every value the closure table ever holds is the product along such a
path. -/
inductive Reach (units : List MepUnit) (edges : List ConversionEquation) :
    String → String → ℚ → Prop
  | direct (e : ConversionEquation) (he : e ∈ edges) :
      Reach units edges e.fromUnitId e.toUnitId e.multiplier
  | self (u : MepUnit) (hu : u ∈ units) : Reach units edges u.id u.id 1
  | comp {i k j : String} {v w : ℚ} :
      Reach units edges i k v → Reach units edges k j w →
      Reach units edges i j (v * w)

/-- A table is sound when each binding is a path product. -/
def SoundTable (units : List MepUnit) (edges : List ConversionEquation)
    (m : PairMap) : Prop :=
  ∀ p v, m p = some v → Reach units edges p.1 p.2 v

theorem soundTable_directFold (units : List MepUnit)
    (edges : List ConversionEquation) (l : List ConversionEquation)
    (hl : ∀ c ∈ l, c ∈ edges) (m : PairMap)
    (hm : SoundTable units edges m) :
    SoundTable units edges
      (l.foldl (fun m c => m.insert (convPair c) c.multiplier) m) := by
  induction l generalizing m with
  | nil => exact hm
  | cons c l ih =>
    rw [List.foldl_cons]
    refine ih (fun c' hc' => hl c' (List.mem_cons_of_mem _ hc')) _ ?_
    intro p v h
    unfold PairMap.insert at h
    by_cases hp : p = convPair c
    · rw [if_pos hp] at h
      cases h
      subst hp
      exact Reach.direct c (hl c (List.mem_cons_self c l))
    · rw [if_neg hp] at h
      exact hm p v h

theorem soundTable_identityFold (units : List MepUnit)
    (edges : List ConversionEquation) (l : List MepUnit)
    (hl : ∀ u ∈ l, u ∈ units) (m : PairMap)
    (hm : SoundTable units edges m) :
    SoundTable units edges
      (l.foldl (fun m w => m.insert (w.id, w.id) 1) m) := by
  induction l generalizing m with
  | nil => exact hm
  | cons w l ih =>
    rw [List.foldl_cons]
    refine ih (fun u hu => hl u (List.mem_cons_of_mem _ hu)) _ ?_
    intro p v h
    unfold PairMap.insert at h
    by_cases hp : p = (w.id, w.id)
    · rw [if_pos hp] at h
      cases h
      subst hp
      exact Reach.self w (hl w (List.mem_cons_self w l))
    · rw [if_neg hp] at h
      exact hm p v h

theorem soundTable_floydStep (units : List MepUnit)
    (edges : List ConversionEquation) (m : PairMap) (i k j : String)
    (hm : SoundTable units edges m) :
    SoundTable units edges (floydStep m i k j) := by
  unfold floydStep
  cases hik : m (i, k) with
  | none => exact hm
  | some a =>
    cases hkj : m (k, j) with
    | none => exact hm
    | some b =>
      cases hij : (m (i, j)).isSome with
      | true => exact hm
      | false =>
        intro p v h
        replace h : (m.insert (i, j) (a * b)) p = some v := h
        unfold PairMap.insert at h
        by_cases hp : p = (i, j)
        · rw [if_pos hp] at h
          cases h
          subst hp
          exact Reach.comp (hm (i, k) a hik) (hm (k, j) b hkj)
        · rw [if_neg hp] at h
          exact hm p v h

/-- Folding sound-preserving steps preserves soundness. -/
theorem soundTable_fold {α : Type} (units : List MepUnit)
    (edges : List ConversionEquation) (f : PairMap → α → PairMap)
    (hf : ∀ m a, SoundTable units edges m → SoundTable units edges (f m a))
    (l : List α) (m : PairMap) (hm : SoundTable units edges m) :
    SoundTable units edges (l.foldl f m) := by
  induction l generalizing m with
  | nil => exact hm
  | cons a l ih => exact ih _ (hf m a hm)

theorem soundTable_floydLoop (units : List MepUnit)
    (edges : List ConversionEquation) (l : List MepUnit) (m : PairMap)
    (hm : SoundTable units edges m) :
    SoundTable units edges (floydLoop l m) := by
  unfold floydLoop
  refine soundTable_fold units edges _ ?_ l m hm
  intro m k hk
  refine soundTable_fold units edges _ ?_ l m hk
  intro m i hi
  refine soundTable_fold units edges _ ?_ l m hi
  intro m j hj
  exact soundTable_floydStep units edges m i.id k.id j.id hj

theorem closureTable_sound (units : List MepUnit)
    (existing : List ConversionEquation) :
    SoundTable units existing (closureTable units existing) := by
  unfold closureTable seedPhase directPhase
  refine soundTable_floydLoop units existing units _ ?_
  refine soundTable_identityFold units existing units (fun _ h => h) _ ?_
  refine soundTable_directFold units existing existing (fun _ h => h) _ ?_
  intro p v h
  cases h

/-! ### C8: seeding and first-assignment-wins -/

def unitSelf : MepUnit := ⟨"uA", "A", "unit A", [], none⟩

/-- A direct self-conversion, as the Oracle merge loop can admit (its
`to` check runs against the whole group, the source unit included). -/
def edgeSelf : ConversionEquation := ⟨"e", "uA", "uA", 7, "x * 7", "A to A"⟩

/-- **C8 counterexample.**  With the single direct edge uA→uA (×7), the
direct seeding binds (uA,uA) to 7, but the identity seeding loop runs
afterwards and overwrites the binding with 1: the final table does not
hold the direct edge's multiplier, and a set multiplier was overwritten
by a later step of the same run, contrary to the claim. -/
theorem closure_seed_overwrite_counterexample :
    directPhase [edgeSelf] ("uA", "uA") = some 7 ∧
    closureTable [unitSelf] [edgeSelf] ("uA", "uA") = some 1 ∧
    edgeSelf.fromUnitId = "uA" ∧ edgeSelf.toUnitId = "uA" ∧
    edgeSelf.multiplier = 7 ∧ unitSelf ∈ [unitSelf] ∧
    edgeSelf ∈ [edgeSelf] := by
  with_unfolding_all decide

/-- **C8 (amended).**  For direct conversion lists satisfying the data
model's one-equation-per-ordered-pair invariant, and restricted to
non-self direct edges (identity seeds take precedence on self pairs, as
the counterexample shows): the table is seeded with multiplier 1 for
every unit's self pair and with every direct edge's multiplier; the
triple loop assigns a pair only when it is unset, so once set a
multiplier is never overwritten by the relaxation phase; and every value
the table ever holds is a product along a composition path of direct
edges and identity self loops. -/
theorem closure_seed_first_wins_amended
    (units : List MepUnit) (direct : List ConversionEquation)
    (hpairs : (direct.map convPair).Nodup) :
    (∀ u ∈ units, closureTable units direct (u.id, u.id) = some 1) ∧
    (∀ e ∈ direct, e.fromUnitId ≠ e.toUnitId →
      closureTable units direct (e.fromUnitId, e.toUnitId) = some e.multiplier) ∧
    (∀ (m : PairMap) (p : String × String) (v : ℚ),
      m p = some v → floydLoop units m p = some v) ∧
    (∀ p v, closureTable units direct p = some v →
      Reach units direct p.1 p.2 v) := by
  refine ⟨?_, ?_, floydLoop_preserve units, closureTable_sound units direct⟩
  · intro u hu
    exact floydLoop_preserve units _ _ 1 (seedPhase_self units direct u hu)
  · intro e he hne
    refine floydLoop_preserve units _ _ e.multiplier ?_
    have hoff := seedPhase_offdiag units direct (e.fromUnitId, e.toUnitId) hne
    rw [hoff]
    exact directPhase_mem direct e he hpairs

/-- Witness: the amended C8 theorem applied to the concrete group
{A, B} with the single direct edge A→B (×2). -/
theorem closure_seed_first_wins_amended_witness :
    closureTable [unitA, unitB] [edgeAB] ("A", "A") = some 1 ∧
    closureTable [unitA, unitB] [edgeAB] ("A", "B") = some 2 := by
  have h := closure_seed_first_wins_amended [unitA, unitB] [edgeAB] (by decide)
  exact ⟨h.1 unitA (by decide), h.2.1 edgeAB (by decide) (by decide)⟩

/-! ### C10: the closure pass keeps every well-formed direct edge -/

/-- `find?` returns the unique element satisfying the predicate. -/
theorem find?_eq_some_of_unique {α : Type} (p : α → Bool) (l : List α)
    (a : α) (ha : a ∈ l) (hpa : p a = true)
    (huniq : ∀ x ∈ l, p x = true → x = a) :
    l.find? p = some a := by
  induction l with
  | nil => cases ha
  | cons b l ih =>
    by_cases hb : p b = true
    · have hba : b = a := huniq b (List.mem_cons_self b l) hb
      subst hba
      exact List.find?_cons_of_pos l hb
    · rw [List.find?_cons_of_neg l (by simpa using hb)]
      rcases List.mem_cons.mp ha with rfl | ha
      · exact absurd hpa hb
      · exact ih ha (fun x hx => huniq x (List.mem_cons_of_mem _ hx))

/-- **C10.**  Under the data model's one-equation-per-ordered-pair
invariant, every input equation whose endpoints are distinct and both
belong to the unit list reappears in the closure output as the very same
record (all fields unchanged), and every output equation that is not an
input equation covers a pair no input equation had. -/
theorem closure_preserves_direct_edges
    (uuid : String → String → String) (units : List MepUnit)
    (existing : List ConversionEquation)
    (hpairs : (existing.map convPair).Nodup)
    (e : ConversionEquation) (he : e ∈ existing)
    (hne : e.fromUnitId ≠ e.toUnitId)
    (hfrom : ∃ u ∈ units, u.id = e.fromUnitId)
    (hto : ∃ v ∈ units, v.id = e.toUnitId) :
    e ∈ generateCompleteConversions uuid units existing ∧
    ∀ c ∈ generateCompleteConversions uuid units existing, c ∉ existing →
      convPair c ∉ existing.map convPair := by
  constructor
  · unfold generateCompleteConversions
    by_cases hn : units.length < 2
    · rw [if_pos hn]; exact he
    · rw [if_neg hn]
      obtain ⟨u, hu, hui⟩ := hfrom
      obtain ⟨w, hw, hwi⟩ := hto
      refine List.mem_flatMap.mpr ⟨u, hu, ?_⟩
      refine List.mem_filterMap.mpr ⟨w, hw, ?_⟩
      rw [if_neg (by rw [hui, hwi]; exact hne)]
      have hsome : (closureTable units existing (u.id, w.id)).isSome := by
        rw [hui, hwi]
        exact floydLoop_isSome units _ (convPair e)
          (seedPhase_isSome units existing e he)
      obtain ⟨m, hm⟩ := Option.isSome_iff_exists.mp hsome
      rw [hm]
      have hfind : existing.find?
          (fun c => c.fromUnitId == u.id && c.toUnitId == w.id) = some e := by
        refine find?_eq_some_of_unique _ existing e he ?_ ?_
        · simp [hui, hwi]
        · intro x hx hpx
          simp only [Bool.and_eq_true, beq_iff_eq] at hpx
          refine List.inj_on_of_nodup_map hpairs hx he ?_
          unfold convPair
          rw [hpx.1, hpx.2, hui, hwi]
      rw [hfind]
  · intro c hc hcne
    unfold generateCompleteConversions at hc
    by_cases hn : units.length < 2
    · rw [if_pos hn] at hc; exact absurd hc hcne
    · rw [if_neg hn] at hc
      obtain ⟨fu, hfu, hc2⟩ := List.mem_flatMap.mp hc
      obtain ⟨tu, htu, heq⟩ := List.mem_filterMap.mp hc2
      by_cases hft : fu.id = tu.id
      · rw [if_pos hft] at heq; cases heq
      · rw [if_neg hft] at heq
        cases hmul : closureTable units existing (fu.id, tu.id) with
        | none => rw [hmul] at heq; cases heq
        | some m =>
          rw [hmul] at heq
          cases hfind : existing.find?
              (fun c => c.fromUnitId == fu.id && c.toUnitId == tu.id) with
          | some ex =>
            rw [hfind] at heq
            cases heq
            exact absurd (List.mem_of_find?_eq_some hfind) hcne
          | none =>
            rw [hfind] at heq
            cases heq
            intro hmem
            obtain ⟨x, hx, hxp⟩ := List.mem_map.mp hmem
            have := List.find?_eq_none.mp hfind x hx
            apply this
            unfold convPair at hxp
            simp only [Bool.and_eq_true, beq_iff_eq]
            exact ⟨congrArg Prod.fst hxp, congrArg Prod.snd hxp⟩

/-- Witness for C10 at the concrete three-unit group of the spec's
closure example: the direct edge A→B (×2) survives the closure pass
unchanged. -/
theorem closure_preserves_direct_edges_witness :
    edgeAB ∈ generateCompleteConversions uuid0 [unitA, unitB, unitC]
      [edgeAB, edgeBC] :=
  (closure_preserves_direct_edges uuid0 [unitA, unitB, unitC]
    [edgeAB, edgeBC] (by decide) edgeAB (by decide) (by decide)
    ⟨unitA, by decide, by decide⟩ ⟨unitB, by decide, by decide⟩).1

/-! ### Oracle boundary: raw conversions, validation, merge
(`generateCustomConversions` in dist/postprocess) -/

/-- A JavaScript number as the Oracle may return it. -/
inductive JSNum : Type
  | num (q : ℚ)
  | nan
  | posInf
  | negInf
deriving DecidableEq, Repr

/-- A raw Oracle conversion record.  `none` on a field models a missing
field or one of the wrong runtime type (`from`/`to` are spelled
`fromSym`/`toSym` because `from` is a Lean keyword). -/
structure RawConversion where
  fromSym : Option String
  toSym : Option String
  multiplier : Option JSNum
  equation : Option String
deriving DecidableEq, Repr

/-- The record `validateConversion` returns on success. -/
structure ValidatedConversion where
  fromSym : String
  toSym : String
  multiplier : ℚ
  equation : String
deriving DecidableEq, Repr

/-- `validateConversion(conv, fromUnit, allUnits)`: the four fields must
be truthy (present, nonempty string, number type); `from` must equal the
source unit's symbol and `to` must be the symbol of some unit in
`allUnits`; the multiplier must be positive and finite and the equation
must contain the placeholder `x`.  NaN fails `isFinite`, +Infinity fails
`isFinite`, -Infinity fails `> 0`, so only finite positive rationals
pass. -/
def validateConversion (conv : RawConversion) (fromUnit : MepUnit)
    (allUnits : List MepUnit) : Option ValidatedConversion :=
  match conv.fromSym, conv.toSym, conv.multiplier, conv.equation with
  | some f, some t, some m, some eq =>
    if f = "" ∨ t = "" ∨ eq = "" then none
    else if f ≠ fromUnit.symbol ∨ (allUnits.find? (fun u => u.symbol == t)) = none
      then none
    else
      match m with
      | JSNum.num q =>
        if q ≤ 0 ∨ ¬(eq.contains 'x') then none
        else some ⟨f, t, q, eq.trim⟩
      | _ => none
  | _, _, _, _ => none

/-- Merging one validated conversion into a group's conversion list:
resolve `to` to the first group unit with that symbol, skip if the
ordered (fromUnitId, toUnitId) pair already exists, otherwise push a new
equation. -/
def mergeValidated (uuid : String → String → String)
    (groupUnits : List MepUnit) (fromUnit : MepUnit)
    (convs : List ConversionEquation) (v : ValidatedConversion) :
    List ConversionEquation :=
  match groupUnits.find? (fun u => u.symbol == v.toSym) with
  | none => convs
  | some toUnit =>
    if convs.any (fun c => c.fromUnitId == fromUnit.id && c.toUnitId == toUnit.id)
      then convs
    else
      convs ++ [{ id := uuid fromUnit.id toUnit.id
                  fromUnitId := fromUnit.id
                  toUnitId := toUnit.id
                  multiplier := v.multiplier
                  equation := v.equation
                  description := fromUnit.symbol ++ " to " ++ toUnit.symbol }]

/-- Processing one unit of an in-progress group: ask the Oracle (a
deterministic response function models the at-least-once, validated
boundary), validate every returned edge against the whole group, and
merge the valid ones in order. -/
def processUnit (oracle : MepUnit → List RawConversion)
    (uuid : String → String → String) (groupUnits : List MepUnit)
    (convs : List ConversionEquation) (fromUnit : MepUnit) :
    List ConversionEquation :=
  ((oracle fromUnit).filterMap
      (fun c => validateConversion c fromUnit groupUnits)).foldl
    (mergeValidated uuid groupUnits fromUnit) convs

/-- The per-group conversion-generation loop over a list of units to
process (batching joins at a barrier and merges in batch order, so the
merge order equals the unit list order). -/
def processUnits (oracle : MepUnit → List RawConversion)
    (uuid : String → String → String) (groupUnits : List MepUnit)
    (toProcess : List MepUnit) (convs : List ConversionEquation) :
    List ConversionEquation :=
  toProcess.foldl (processUnit oracle uuid groupUnits) convs

/-- The checkpoint record of `generateCustomConversions`. -/
structure Checkpoint where
  classificationComplete : Bool
  groupsClassified : List (String × List String)
  conversionsGroupsCompleted : List String
  currentConversionGroupId : Option String
  unitsCompleted : List String
  lastUpdated : String
deriving DecidableEq, Repr

/-- JS truthiness of an optional string: `undefined` and `""` are falsy. -/
def jsFalsyOptStr : Option String → Bool
  | none => true
  | some s => s == ""

/-- Phase 1 operates on the units without a (truthy) `unitGroupId`. -/
def unmappedUnits (allUnits : List MepUnit) : List MepUnit :=
  allUnits.filter (fun u => jsFalsyOptStr u.unitGroupId)

/-- The units Phase 1 will send to the Oracle: none when the checkpoint
records classification as complete. -/
def classifyTargets (checkpoint : Checkpoint) (allUnits : List MepUnit) :
    List MepUnit :=
  if checkpoint.classificationComplete then [] else unmappedUnits allUnits

/-- Phase 2 group selection: groups already in
`conversionsGroupsCompleted` are skipped; of the rest, only groups with
at least two member units and fewer conversions than N*(N-1) are
processed. -/
def groupsNeedingConversions (checkpoint : Checkpoint)
    (allUnits : List MepUnit) (unitGroups : List UnitGroup) :
    List UnitGroup :=
  unitGroups.filter fun g =>
    if checkpoint.conversionsGroupsCompleted.contains g.id then false
    else
      let units := allUnits.filter (fun u => g.unitIds.contains u.id)
      decide (g.conversions.length < units.length * (units.length - 1)) &&
        decide (2 ≤ units.length)

/-- Phase 2 resume filter: within the group recorded as in progress,
only units not in `unitsCompleted` are processed; any other group is
processed in full. -/
def unitsToProcess (checkpoint : Checkpoint) (group : UnitGroup)
    (groupUnits : List MepUnit) : List MepUnit :=
  if checkpoint.currentConversionGroupId = some group.id then
    groupUnits.filter (fun u => !(checkpoint.unitsCompleted.contains u.id))
  else groupUnits

/-! ### C5: which Oracle edges are merged -/

/-- The fate of a single raw Oracle edge: validate, then merge.
`processUnit` is exactly the fold of this step over the Oracle's
response list. -/
def mergeRawEdge (uuid : String → String → String)
    (groupUnits : List MepUnit) (fromUnit : MepUnit)
    (convs : List ConversionEquation) (conv : RawConversion) :
    List ConversionEquation :=
  match validateConversion conv fromUnit groupUnits with
  | none => convs
  | some v => mergeValidated uuid groupUnits fromUnit convs v

theorem processUnit_eq_fold_mergeRawEdge
    (oracle : MepUnit → List RawConversion) (uuid : String → String → String)
    (groupUnits : List MepUnit) (convs : List ConversionEquation)
    (fromUnit : MepUnit) :
    processUnit oracle uuid groupUnits convs fromUnit =
      (oracle fromUnit).foldl (mergeRawEdge uuid groupUnits fromUnit) convs := by
  unfold processUnit
  generalize oracle fromUnit = l
  induction l generalizing convs with
  | nil => rfl
  | cons c l ih =>
    rw [List.foldl_cons]
    unfold mergeRawEdge
    cases hv : validateConversion c fromUnit groupUnits with
    | none => simp only [List.filterMap_cons, hv]; exact ih convs
    | some v => simp only [List.filterMap_cons, hv, List.foldl_cons]; exact ih _

def unitU1 : MepUnit := ⟨"u1", "A", "unit A", [], none⟩
def unitU2 : MepUnit := ⟨"u2", "B", "unit B", [], none⟩

/-- An Oracle edge whose `to` names the source unit's own symbol: not a
sibling, yet validated against the whole group it passes. -/
def rawSelfEdge : RawConversion := ⟨some "A", some "A", some (JSNum.num 1), some "x * 1"⟩

def rawSelfEdgeB : RawConversion := ⟨some "B", some "B", some (JSNum.num 1), some "x * 1"⟩

def rawCrossEdge : RawConversion := ⟨some "A", some "B", some (JSNum.num 2), some "x * 2"⟩

/-- **C5 counterexample.**  In the group {u1 (symbol A), u2 (symbol B)},
processing u1 with sibling set S = [u2]: the Oracle edge A→A has a `to`
that is the symbol of no unit in S, so the claim says it is dropped —
but `validateConversion` checks `to` against the whole group (the source
unit included), so the edge is merged as a self conversion u1→u1. -/
theorem oracle_edge_merge_counterexample :
    ([unitU2].map (fun w => w.symbol)).contains "A" = false ∧
    rawSelfEdge.toSym = some "A" ∧
    processUnit (fun _ => [rawSelfEdge]) uuid0 [unitU1, unitU2] [] unitU1 =
      [⟨uuid0 "u1" "u1", "u1", "u1", 1, "x * 1", "A to A"⟩] := by
  with_unfolding_all decide

/-- Inversion of `validateConversion`: it succeeds exactly on edges whose
four fields are present and truthy, whose `from` equals the source
symbol, whose `to` is the symbol of some group unit, whose multiplier is
a positive finite number, and whose equation contains the placeholder
`x`; the returned record carries the trimmed equation. -/
theorem validateConversion_eq_some_iff (conv : RawConversion)
    (fromUnit : MepUnit) (allUnits : List MepUnit)
    (v : ValidatedConversion) :
    validateConversion conv fromUnit allUnits = some v ↔
      ∃ f t q eq, conv.fromSym = some f ∧ conv.toSym = some t ∧
        conv.multiplier = some (JSNum.num q) ∧ conv.equation = some eq ∧
        ¬f = "" ∧ ¬t = "" ∧ ¬eq = "" ∧ f = fromUnit.symbol ∧
        (allUnits.find? (fun u => u.symbol == t)).isSome ∧
        0 < q ∧ eq.contains 'x' = true ∧ v = ⟨f, t, q, eq.trim⟩ := by
  obtain ⟨f?, t?, m?, e?⟩ := conv
  rcases f? with _ | f <;> rcases t? with _ | t <;> rcases m? with _ | m <;>
      rcases e? with _ | e <;>
    try (simp [validateConversion]; done)
  cases m with
  | num q =>
    rw [show validateConversion ⟨some f, some t, some (JSNum.num q), some e⟩
          fromUnit allUnits =
        (if f = "" ∨ t = "" ∨ e = "" then none
         else if f ≠ fromUnit.symbol ∨
             (allUnits.find? (fun u => u.symbol == t)) = none then none
         else if q ≤ 0 ∨ ¬(e.contains 'x') then none
         else some ⟨f, t, q, e.trim⟩) from rfl]
    constructor
    · intro h
      split_ifs at h with h1 h2 h3
      injection h with h
      subst h
      push_neg at h1 h2 h3
      exact ⟨f, t, q, e, rfl, rfl, rfl, rfl, h1.1, h1.2.1, h1.2.2, h2.1,
        Option.isSome_iff_ne_none.mpr h2.2, h3.1, h3.2, rfl⟩
    · rintro ⟨f', t', q', eq', hf, ht, hm, he, hf0, ht0, he0, hfs, hfind,
        hq, hx, hv⟩
      cases hf
      cases ht
      cases hm
      cases he
      have hn1 : ¬(f = "" ∨ t = "" ∨ e = "") := by
        push_neg
        exact ⟨hf0, ht0, he0⟩
      have hn2 : ¬(f ≠ fromUnit.symbol ∨
          (allUnits.find? (fun u => u.symbol == t)) = none) := by
        push_neg
        exact ⟨hfs, Option.isSome_iff_ne_none.mp hfind⟩
      have hn3 : ¬(q ≤ 0 ∨ ¬(e.contains 'x')) := by
        push_neg
        exact ⟨hq, hx⟩
      rw [if_neg hn1, if_neg hn2, if_neg hn3, hv]
  | nan => simp [validateConversion]
  | posInf => simp [validateConversion]
  | negInf => simp [validateConversion]


theorem mergeValidated_notFound (uuid : String → String → String)
    (groupUnits : List MepUnit) (fromUnit : MepUnit)
    (convs : List ConversionEquation) (v : ValidatedConversion)
    (hfind : groupUnits.find? (fun u => u.symbol == v.toSym) = none) :
    mergeValidated uuid groupUnits fromUnit convs v = convs := by
  simp [mergeValidated, hfind]

theorem mergeValidated_dup (uuid : String → String → String)
    (groupUnits : List MepUnit) (fromUnit : MepUnit)
    (convs : List ConversionEquation) (v : ValidatedConversion)
    (toUnit : MepUnit)
    (hfind : groupUnits.find? (fun u => u.symbol == v.toSym) = some toUnit)
    (hany : (convs.any fun c => c.fromUnitId == fromUnit.id &&
      c.toUnitId == toUnit.id) = true) :
    mergeValidated uuid groupUnits fromUnit convs v = convs := by
  simp [mergeValidated, hfind, hany]

theorem mergeValidated_push (uuid : String → String → String)
    (groupUnits : List MepUnit) (fromUnit : MepUnit)
    (convs : List ConversionEquation) (v : ValidatedConversion)
    (toUnit : MepUnit)
    (hfind : groupUnits.find? (fun u => u.symbol == v.toSym) = some toUnit)
    (hany : (convs.any fun c => c.fromUnitId == fromUnit.id &&
      c.toUnitId == toUnit.id) = false) :
    mergeValidated uuid groupUnits fromUnit convs v =
      convs ++ [{ id := uuid fromUnit.id toUnit.id
                  fromUnitId := fromUnit.id
                  toUnitId := toUnit.id
                  multiplier := v.multiplier
                  equation := v.equation
                  description := fromUnit.symbol ++ " to " ++ toUnit.symbol }] := by
  simp [mergeValidated, hfind, hany]

/-- **C5 (amended).**  A raw Oracle edge is merged (changes the group's
conversion list, by appending one new equation) if and only if: its four
fields are present and truthy, its `from` equals the source unit's
symbol, its `to` is the symbol of some unit of the whole group — the
source unit included, not only the sibling set — its multiplier is a
positive finite number, its equation contains the placeholder `x`, and
the ordered (fromUnitId, toUnitId) pair, with `toUnitId` resolved to the
first group unit bearing that symbol, is not already present.  An edge
failing any check leaves the list unchanged (no retry, no error). -/
theorem oracle_edge_merge_amended
    (uuid : String → String → String) (groupUnits : List MepUnit)
    (fromUnit : MepUnit) (convs : List ConversionEquation)
    (conv : RawConversion) :
    (mergeRawEdge uuid groupUnits fromUnit convs conv ≠ convs ↔
      ∃ f t q eq toUnit,
        conv.fromSym = some f ∧ ¬f = "" ∧ f = fromUnit.symbol ∧
        conv.toSym = some t ∧ ¬t = "" ∧
        groupUnits.find? (fun u => u.symbol == t) = some toUnit ∧
        conv.multiplier = some (JSNum.num q) ∧ 0 < q ∧
        conv.equation = some eq ∧ ¬eq = "" ∧ eq.contains 'x' = true ∧
        convs.any (fun c => c.fromUnitId == fromUnit.id &&
          c.toUnitId == toUnit.id) = false) ∧
    (∀ f t q eq toUnit,
      conv.fromSym = some f → ¬f = "" → f = fromUnit.symbol →
      conv.toSym = some t → ¬t = "" →
      groupUnits.find? (fun u => u.symbol == t) = some toUnit →
      conv.multiplier = some (JSNum.num q) → 0 < q →
      conv.equation = some eq → ¬eq = "" → eq.contains 'x' = true →
      convs.any (fun c => c.fromUnitId == fromUnit.id &&
        c.toUnitId == toUnit.id) = false →
      mergeRawEdge uuid groupUnits fromUnit convs conv =
        convs ++ [{ id := uuid fromUnit.id toUnit.id
                    fromUnitId := fromUnit.id
                    toUnitId := toUnit.id
                    multiplier := q
                    equation := eq.trim
                    description := fromUnit.symbol ++ " to " ++ toUnit.symbol }]) := by
  have merge2 : ∀ (f t : String) (q : ℚ) (eq : String) (toUnit : MepUnit),
      conv.fromSym = some f → ¬f = "" → f = fromUnit.symbol →
      conv.toSym = some t → ¬t = "" →
      groupUnits.find? (fun u => u.symbol == t) = some toUnit →
      conv.multiplier = some (JSNum.num q) → 0 < q →
      conv.equation = some eq → ¬eq = "" → eq.contains 'x' = true →
      convs.any (fun c => c.fromUnitId == fromUnit.id &&
        c.toUnitId == toUnit.id) = false →
      mergeRawEdge uuid groupUnits fromUnit convs conv =
        convs ++ [{ id := uuid fromUnit.id toUnit.id
                    fromUnitId := fromUnit.id
                    toUnitId := toUnit.id
                    multiplier := q
                    equation := eq.trim
                    description := fromUnit.symbol ++ " to " ++ toUnit.symbol }] := by
    intro f t q eq toUnit hf hf0 hfs ht ht0 hfind hm hq he he0 hx hany
    have hval : validateConversion conv fromUnit groupUnits =
        some ⟨f, t, q, eq.trim⟩ :=
      (validateConversion_eq_some_iff conv fromUnit groupUnits _).mpr
        ⟨f, t, q, eq, hf, ht, hm, he, hf0, ht0, he0, hfs,
          by rw [hfind]; rfl, hq, hx, rfl⟩
    unfold mergeRawEdge
    rw [hval]
    exact mergeValidated_push uuid groupUnits fromUnit convs
      ⟨f, t, q, eq.trim⟩ toUnit hfind hany
  refine ⟨⟨?_, ?_⟩, merge2⟩
  · intro hne
    unfold mergeRawEdge at hne
    cases hval : validateConversion conv fromUnit groupUnits with
    | none => rw [hval] at hne; exact absurd rfl hne
    | some v =>
      rw [hval] at hne
      replace hne : mergeValidated uuid groupUnits fromUnit convs v ≠ convs :=
        hne
      cases hfind : groupUnits.find? (fun u => u.symbol == v.toSym) with
      | none =>
        exact absurd (mergeValidated_notFound uuid groupUnits fromUnit convs
          v hfind) hne
      | some toUnit =>
        cases hany : convs.any (fun c => c.fromUnitId == fromUnit.id &&
            c.toUnitId == toUnit.id) with
        | true =>
          exact absurd (mergeValidated_dup uuid groupUnits fromUnit convs v
            toUnit hfind hany) hne
        | false =>
          obtain ⟨f, t, q, eq, hfo, hto, hmo, heo, hf0, ht0, he0, hfs,
            hfindSome, hq, hx, hv⟩ :=
            (validateConversion_eq_some_iff conv fromUnit groupUnits v).mp hval
          subst hv
          exact ⟨f, t, q, eq, toUnit, hfo, hf0, hfs, hto, ht0, hfind, hmo,
            hq, heo, he0, hx, hany⟩
  · rintro ⟨f, t, q, eq, toUnit, hf, hf0, hfs, ht, ht0, hfind, hm, hq, he,
      he0, hx, hany⟩
    rw [merge2 f t q eq toUnit hf hf0 hfs ht ht0 hfind hm hq he he0 hx hany]
    intro hbad
    have hlen := congrArg List.length hbad
    simp at hlen

/-- Witness: the cross edge A→B (×2) for source unit u1 in group
{u1, u2} passes every check and is merged. -/
theorem oracle_edge_merge_amended_witness :
    mergeRawEdge uuid0 [unitU1, unitU2] unitU1 [] rawCrossEdge ≠ [] := by
  refine (oracle_edge_merge_amended uuid0 [unitU1, unitU2] unitU1 []
      rawCrossEdge).1.mpr
    ⟨"A", "B", 2, "x * 2", unitU2, ?_, ?_, ?_, ?_, ?_, ?_, ?_, ?_, ?_, ?_,
      ?_, ?_⟩ <;> with_unfolding_all decide

/-! ### C2: conversion-count bound and closure idempotence -/

/-- The per-group step of `ensureCompleteConversions` (main.ts): run the
closure pass only when the group holds fewer conversions than
N*(N-1). -/
def processGroup (uuid : String → String → String)
    (allUnits : List MepUnit) (group : UnitGroup) : UnitGroup :=
  if group.conversions.length <
      (allUnits.filter (fun u => group.unitIds.contains u.id)).length *
        ((allUnits.filter (fun u => group.unitIds.contains u.id)).length - 1)
    then
    { group with conversions := generateCompleteConversions uuid (allUnits.filter (fun u => group.unitIds.contains u.id)) group.conversions }
  else group

/-- The Oracle responses of the C2 counterexample: self edges pass
validation because `to` is checked against the whole group. -/
def oracleSelf (u : MepUnit) : List RawConversion :=
  if u.id == "u1" then [rawSelfEdge, rawCrossEdge] else [rawSelfEdgeB]

/-- **C2 counterexample.**  In the two-unit group {u1 (A), u2 (B)}
(N = 2, N*(N-1) = 2), running the Oracle merge loop over both units with
responses A→A, A→B and B→B leaves the group's conversion list with three
equations — more than N*(N-1) — among them a self-pair equation, which
is not an ordered pair of distinct units. -/
theorem conversion_count_bound_counterexample :
    (processUnits oracleSelf uuid0 [unitU1, unitU2] [unitU1, unitU2] []).length
        = 3 ∧
    2 * (2 - 1) = 2 ∧
    (∃ c ∈ processUnits oracleSelf uuid0 [unitU1, unitU2] [unitU1, unitU2] [],
      c.fromUnitId = c.toUnitId) := by
  with_unfolding_all decide

/-- A list of naturals each bounded by `c` sums to at most `length * c`. -/
theorem sum_le_length_mul (l : List ℕ) (c : ℕ) (h : ∀ x ∈ l, x ≤ c) :
    l.sum ≤ l.length * c := by
  induction l with
  | nil => simp
  | cons x l ih =>
    rw [List.sum_cons, List.length_cons, Nat.succ_mul]
    have := ih (fun y hy => h y (List.mem_cons_of_mem _ hy))
    have hx := h x (List.mem_cons_self x l)
    omega

/-- Dropping the elements a filterMap sends to `none` does not change the
result. -/
theorem filterMap_eq_filterMap_filter {α β : Type} (g : α → Option β)
    (p : α → Bool) (l : List α) (h : ∀ x ∈ l, p x = false → g x = none) :
    l.filterMap g = (l.filter p).filterMap g := by
  induction l with
  | nil => rfl
  | cons x l ih =>
    have ih' := ih (fun y hy => h y (List.mem_cons_of_mem _ hy))
    cases hp : p x with
    | true => rw [List.filter_cons_of_pos hp, List.filterMap_cons,
        List.filterMap_cons, ih']
    | false =>
      rw [List.filter_cons_of_neg (by simp [hp]), List.filterMap_cons,
        h x (List.mem_cons_self x l) hp, ih']

/-- With pairwise-distinct ids, at most `n - 1` units differ from a
member unit. -/
theorem length_filter_ne_id (units : List MepUnit) (u : MepUnit)
    (hu : u ∈ units) (hids : (units.map (fun w => w.id)).Nodup) :
    (units.filter (fun w => w.id != u.id)).length ≤ units.length - 1 := by
  induction units with
  | nil => cases hu
  | cons w l ih =>
    rw [List.map_cons, List.nodup_cons] at hids
    rcases List.mem_cons.mp hu with rfl | hu
    · rw [List.filter_cons_of_neg (by simp)]
      calc (l.filter (fun w => w.id != u.id)).length
          ≤ l.length := List.length_filter_le _ _
        _ = (u :: l).length - 1 := by simp
    · have hw : w.id ≠ u.id := by
        intro hEq
        exact hids.1 (hEq ▸ List.mem_map_of_mem _ hu)
      rw [List.filter_cons_of_pos (by simp [hw])]
      have hle := ih hu hids.2
      have hl : 1 ≤ l.length := List.length_pos.mpr (List.ne_nil_of_mem hu)
      simp only [List.length_cons]
      omega

/-- The closure output enumerates ordered pairs of distinct units, so
with pairwise-distinct unit ids it holds at most N*(N-1) equations. -/
theorem generateCompleteConversions_length_le
    (uuid : String → String → String) (units : List MepUnit)
    (existing : List ConversionEquation)
    (hids : (units.map (fun u => u.id)).Nodup) (hn : 2 ≤ units.length) :
    (generateCompleteConversions uuid units existing).length ≤
      units.length * (units.length - 1) := by
  unfold generateCompleteConversions
  rw [if_neg (by omega)]
  rw [List.length_flatMap]
  have hmap : ∀ x ∈ units.map (fun fromUnit =>
      (units.filterMap fun toUnit =>
        if fromUnit.id = toUnit.id then none
        else
          match closureTable units existing (fromUnit.id, toUnit.id) with
          | none => none
          | some m =>
            match existing.find?
                (fun c => c.fromUnitId == fromUnit.id &&
                  c.toUnitId == toUnit.id) with
            | some e => some e
            | none =>
              some { id := uuid fromUnit.id toUnit.id
                     fromUnitId := fromUnit.id
                     toUnitId := toUnit.id
                     multiplier := m
                     equation := "x * " ++ toString m
                     description :=
                       fromUnit.symbol ++ " to " ++ toUnit.symbol }).length),
      x ≤ units.length - 1 := by
    intro x hx
    obtain ⟨fromUnit, hfu, rfl⟩ := List.mem_map.mp hx
    rw [filterMap_eq_filterMap_filter _ (fun toU => toU.id != fromUnit.id)
      units ?_]
    · calc _ ≤ (units.filter (fun toU => toU.id != fromUnit.id)).length :=
          List.length_filterMap_le _ _
        _ ≤ units.length - 1 := length_filter_ne_id units fromUnit hfu hids
    · intro toU _ hp
      simp only [bne, Bool.not_eq_false', beq_iff_eq] at hp
      rw [if_pos hp.symm]
  calc _ ≤ (units.map _).length * (units.length - 1) :=
      sum_le_length_mul _ _ hmap
    _ = units.length * (units.length - 1) := by rw [List.length_map]

/-- Well-formedness of a group's conversion list: pairwise-distinct
ordered (from, to) pairs, endpoints among the group's unit ids. -/
def ConvWF (groupUnits : List MepUnit)
    (convs : List ConversionEquation) : Prop :=
  ((convs.map convPair).Nodup) ∧
  ∀ c ∈ convs, (∃ u ∈ groupUnits, u.id = c.fromUnitId) ∧
    (∃ u ∈ groupUnits, u.id = c.toUnitId)

theorem mergeValidated_wf (uuid : String → String → String)
    (groupUnits : List MepUnit) (fromUnit : MepUnit)
    (convs : List ConversionEquation) (v : ValidatedConversion)
    (hfu : fromUnit ∈ groupUnits) (hwf : ConvWF groupUnits convs) :
    ConvWF groupUnits (mergeValidated uuid groupUnits fromUnit convs v) := by
  cases hfind : groupUnits.find? (fun u => u.symbol == v.toSym) with
  | none =>
    rw [mergeValidated_notFound uuid groupUnits fromUnit convs v hfind]
    exact hwf
  | some toUnit =>
    cases hany : convs.any (fun c => c.fromUnitId == fromUnit.id &&
        c.toUnitId == toUnit.id) with
    | true =>
      rw [mergeValidated_dup uuid groupUnits fromUnit convs v toUnit
        hfind hany]
      exact hwf
    | false =>
      rw [mergeValidated_push uuid groupUnits fromUnit convs v toUnit
        hfind hany]
      obtain ⟨hnd, hmem⟩ := hwf
      constructor
      · rw [List.map_append]
        rw [List.nodup_append]
        refine ⟨hnd, by simp, ?_⟩
        intro p hp
        obtain ⟨c, hc, rfl⟩ := List.mem_map.mp hp
        simp only [List.map_cons, List.map_nil, List.mem_singleton]
        intro hEq
        have hc1 : (c.fromUnitId == fromUnit.id && c.toUnitId == toUnit.id)
            = true := by
          have h1 := congrArg Prod.fst hEq
          have h2 := congrArg Prod.snd hEq
          simp only [convPair] at h1 h2
          simp [h1, h2]
        have := List.any_eq_false.mp hany c hc
        exact this hc1
      · intro c hc
        rcases List.mem_append.mp hc with hc | hc
        · exact hmem c hc
        · rw [List.mem_singleton] at hc
          subst hc
          exact ⟨⟨fromUnit, hfu, rfl⟩,
            ⟨toUnit, List.mem_of_find?_eq_some hfind, rfl⟩⟩

theorem processUnit_wf (oracle : MepUnit → List RawConversion)
    (uuid : String → String → String) (groupUnits : List MepUnit)
    (convs : List ConversionEquation) (fromUnit : MepUnit)
    (hfu : fromUnit ∈ groupUnits) (hwf : ConvWF groupUnits convs) :
    ConvWF groupUnits (processUnit oracle uuid groupUnits convs fromUnit) := by
  unfold processUnit
  generalize (oracle fromUnit).filterMap
    (fun c => validateConversion c fromUnit groupUnits) = l
  induction l generalizing convs with
  | nil => exact hwf
  | cons v l ih =>
    rw [List.foldl_cons]
    exact ih _ (mergeValidated_wf uuid groupUnits fromUnit convs v hfu hwf)

theorem processUnits_wf (oracle : MepUnit → List RawConversion)
    (uuid : String → String → String) (groupUnits : List MepUnit)
    (toProcess : List MepUnit) (convs : List ConversionEquation)
    (hsub : ∀ u ∈ toProcess, u ∈ groupUnits)
    (hwf : ConvWF groupUnits convs) :
    ConvWF groupUnits
      (processUnits oracle uuid groupUnits toProcess convs) := by
  unfold processUnits
  induction toProcess generalizing convs with
  | nil => exact hwf
  | cons u l ih =>
    rw [List.foldl_cons]
    exact ih _ (fun w hw => hsub w (List.mem_cons_of_mem _ hw))
      (processUnit_wf oracle uuid groupUnits convs u
        (hsub u (List.mem_cons_self u l)) hwf)

/-- A well-formed conversion list holds at most N*N equations. -/
theorem convWF_length_le (groupUnits : List MepUnit)
    (convs : List ConversionEquation) (hwf : ConvWF groupUnits convs) :
    convs.length ≤ groupUnits.length * groupUnits.length := by
  classical
  obtain ⟨hnd, hmem⟩ := hwf
  have hsubset : (convs.map convPair).toFinset ⊆
      (groupUnits.map (fun u => u.id)).toFinset ×ˢ
        (groupUnits.map (fun u => u.id)).toFinset := by
    intro p hp
    rw [List.mem_toFinset] at hp
    obtain ⟨c, hc, rfl⟩ := List.mem_map.mp hp
    obtain ⟨⟨u, hu, hui⟩, ⟨w, hw, hwi⟩⟩ := hmem c hc
    rw [Finset.mem_product]
    constructor <;> rw [List.mem_toFinset]
    · exact List.mem_map.mpr ⟨u, hu, hui⟩
    · exact List.mem_map.mpr ⟨w, hw, hwi⟩
  have hcard : (groupUnits.map (fun u => u.id)).toFinset.card ≤
      groupUnits.length := by
    calc _ ≤ (groupUnits.map (fun u => u.id)).length :=
        (groupUnits.map (fun u => u.id)).toFinset_card_le
      _ = groupUnits.length := List.length_map _ _
  calc convs.length = (convs.map convPair).length :=
      (List.length_map _ _).symm
    _ = (convs.map convPair).toFinset.card :=
      (List.toFinset_card_of_nodup hnd).symm
    _ ≤ _ := Finset.card_le_card hsubset
    _ = (groupUnits.map (fun u => u.id)).toFinset.card *
        (groupUnits.map (fun u => u.id)).toFinset.card :=
      Finset.card_product _ _
    _ ≤ groupUnits.length * groupUnits.length :=
      Nat.mul_le_mul hcard hcard

def groupAB : UnitGroup :=
  ⟨"g1", "Flow", "flow units", none, ["A", "B"], [edgeAB, edgeBA]⟩

/-- **C2 (amended).**  For units with pairwise-distinct ids: the closure
pass returns at most N*(N-1) equations (one per ordered pair of distinct
units); the Oracle merge loop preserves well-formedness — at most one
equation per ordered (from, to) pair, endpoints inside the group — but
may admit self-pair equations, so a merged list is bounded by N*N rather
than N*(N-1); and re-running the closure pass on a group whose
conversion count already equals N*(N-1) leaves the group's conversion
list byte-for-byte unchanged. -/
theorem conversion_count_bound_amended (uuid : String → String → String) :
    (∀ (units : List MepUnit) (existing : List ConversionEquation),
      (units.map (fun u => u.id)).Nodup → 2 ≤ units.length →
      (generateCompleteConversions uuid units existing).length ≤
        units.length * (units.length - 1)) ∧
    (∀ (oracle : MepUnit → List RawConversion)
       (groupUnits toProcess : List MepUnit)
       (convs : List ConversionEquation),
      (∀ u ∈ toProcess, u ∈ groupUnits) → ConvWF groupUnits convs →
      ConvWF groupUnits (processUnits oracle uuid groupUnits toProcess convs) ∧
      (processUnits oracle uuid groupUnits toProcess convs).length ≤
        groupUnits.length * groupUnits.length) ∧
    (∀ (allUnits : List MepUnit) (group : UnitGroup),
      group.conversions.length =
        (allUnits.filter (fun u => group.unitIds.contains u.id)).length *
          ((allUnits.filter (fun u => group.unitIds.contains u.id)).length - 1) →
      processGroup uuid allUnits group = group) := by
  refine ⟨generateCompleteConversions_length_le uuid, ?_, ?_⟩
  · intro oracle groupUnits toProcess convs hsub hwf
    have hwf2 :=
      processUnits_wf oracle uuid groupUnits toProcess convs hsub hwf
    exact ⟨hwf2, convWF_length_le groupUnits _ hwf2⟩
  · intro allUnits group hlen
    unfold processGroup
    rw [if_neg (by omega)]

/-- Witness: the amended C2 theorem at a two-unit group — the closure
output is bounded by 2, the merge loop output by 4, and a group already
holding 2 = N*(N-1) conversions is returned unchanged. -/
theorem conversion_count_bound_amended_witness :
    (generateCompleteConversions uuid0 [unitA, unitB] []).length ≤
      2 * (2 - 1) ∧
    (processUnits oracleSelf uuid0 [unitU1, unitU2] [unitU1, unitU2] []).length
      ≤ 2 * 2 ∧
    processGroup uuid0 [unitA, unitB] groupAB = groupAB := by
  have h := conversion_count_bound_amended uuid0
  refine ⟨h.1 [unitA, unitB] [] (by decide) (by decide),
    (h.2.1 oracleSelf [unitU1, unitU2] [unitU1, unitU2] [] (by decide)
      ⟨by simp, by simp⟩).2,
    h.2.2 [unitA, unitB] groupAB (by with_unfolding_all decide)⟩

/-! ### C3: exact resume from a checkpoint -/

/-- **C3.**  With a checkpoint whose classification phase is complete and
which records `group` as in progress with the units of `l1` completed and
those of `l2` not: Phase 1 issues no classification calls (and, for any
checkpoint, only units without a group id are ever classification
targets); Phase 2 skips every group listed in
`conversionsGroupsCompleted`; the resume filter selects exactly `l2`; and
processing `l2` on top of the checkpointed state (the state after
processing `l1`) yields exactly the conversion list of one uninterrupted
run over all of `groupUnits` — the same list, hence the same set. -/
theorem resume_skips_completed_work
    (oracle : MepUnit → List RawConversion) (uuid : String → String → String)
    (cp : Checkpoint) (allUnits : List MepUnit) (group : UnitGroup)
    (groupUnits l1 l2 : List MepUnit) (c0 : List ConversionEquation)
    (hcc : cp.classificationComplete = true)
    (hsplit : groupUnits = l1 ++ l2)
    (hcur : cp.currentConversionGroupId = some group.id)
    (hdone : ∀ u ∈ l1, cp.unitsCompleted.contains u.id = true)
    (hnotdone : ∀ u ∈ l2, cp.unitsCompleted.contains u.id = false) :
    classifyTargets cp allUnits = [] ∧
    (∀ (cp' : Checkpoint) (allUnits' : List MepUnit) (u : MepUnit),
      jsFalsyOptStr u.unitGroupId = false →
      u ∉ classifyTargets cp' allUnits') ∧
    (∀ (cp' : Checkpoint) (allUnits' : List MepUnit)
       (unitGroups' : List UnitGroup),
      ∀ g ∈ groupsNeedingConversions cp' allUnits' unitGroups',
        cp'.conversionsGroupsCompleted.contains g.id = false) ∧
    unitsToProcess cp group groupUnits = l2 ∧
    processUnits oracle uuid groupUnits (unitsToProcess cp group groupUnits)
        (processUnits oracle uuid groupUnits l1 c0) =
      processUnits oracle uuid groupUnits groupUnits c0 := by
  have h4 : unitsToProcess cp group groupUnits = l2 := by
    unfold unitsToProcess
    rw [if_pos hcur, hsplit, List.filter_append]
    have hl1 : l1.filter (fun u => !(cp.unitsCompleted.contains u.id)) = [] := by
      rw [List.filter_eq_nil_iff]
      intro u hu
      rw [hdone u hu]
      simp
    have hl2 : l2.filter (fun u => !(cp.unitsCompleted.contains u.id)) = l2 := by
      rw [List.filter_eq_self]
      intro u hu
      rw [hnotdone u hu]
      simp
    rw [hl1, hl2, List.nil_append]
  refine ⟨?_, ?_, ?_, h4, ?_⟩
  · unfold classifyTargets
    rw [if_pos hcc]
  · intro cp' allUnits' u hfalse hmem
    unfold classifyTargets at hmem
    by_cases hc : cp'.classificationComplete = true
    · rw [if_pos hc] at hmem
      cases hmem
    · rw [if_neg hc] at hmem
      have := (List.mem_filter.mp hmem).2
      rw [hfalse] at this
      cases this
  · intro cp' allUnits' unitGroups' g hg
    unfold groupsNeedingConversions at hg
    have hpred := (List.mem_filter.mp hg).2
    cases hc : cp'.conversionsGroupsCompleted.contains g.id with
    | false => rfl
    | true => rw [hc] at hpred; simp at hpred
  · rw [h4, hsplit]
    unfold processUnits
    rw [List.foldl_append]

def unitM1 : MepUnit := ⟨"m1", "M1", "unit m1", [], some "G"⟩
def unitM2 : MepUnit := ⟨"m2", "M2", "unit m2", [], some "G"⟩
def unitM3 : MepUnit := ⟨"m3", "M3", "unit m3", [], some "G"⟩
def unitM4 : MepUnit := ⟨"m4", "M4", "unit m4", [], some "G"⟩

def groupG : UnitGroup :=
  ⟨"G", "G", "group G", none, ["m1", "m2", "m3", "m4"], []⟩

/-- The spec's resume example checkpoint: group G in progress,
u1 and u2 done. -/
def cpG : Checkpoint := ⟨true, [], [], some "G", ["m1", "m2"], "t0"⟩

/-- Witness: the C3 theorem at the spec's resume example — four units,
two already completed; resuming processes exactly [m3, m4] and lands on
the uninterrupted run's conversion list. -/
theorem resume_skips_completed_work_witness :
    classifyTargets cpG [unitM1, unitM2, unitM3, unitM4] = [] ∧
    unitsToProcess cpG groupG [unitM1, unitM2, unitM3, unitM4] =
      [unitM3, unitM4] ∧
    processUnits (fun _ => []) uuid0 [unitM1, unitM2, unitM3, unitM4]
        (unitsToProcess cpG groupG [unitM1, unitM2, unitM3, unitM4])
        (processUnits (fun _ => []) uuid0 [unitM1, unitM2, unitM3, unitM4]
          [unitM1, unitM2] []) =
      processUnits (fun _ => []) uuid0 [unitM1, unitM2, unitM3, unitM4]
        [unitM1, unitM2, unitM3, unitM4] [] := by
  have h := resume_skips_completed_work (fun _ => []) uuid0 cpG
    [unitM1, unitM2, unitM3, unitM4] groupG
    [unitM1, unitM2, unitM3, unitM4] [unitM1, unitM2] [unitM3, unitM4] []
    (by decide) rfl (by decide) (by decide) (by decide)
  exact ⟨h.1, h.2.2.2.1, h.2.2.2.2⟩

/-! ### C4: the consistency validator -/

/-- `conversions.find(c => c.fromUnitId === conv.toUnitId &&
c.toUnitId === conv.fromUnitId)`: the first reverse edge. -/
def reverseOf (conversions : List ConversionEquation)
    (conv : ConversionEquation) : Option ConversionEquation :=
  conversions.find? (fun c => c.fromUnitId == conv.toUnitId &&
    c.toUnitId == conv.fromUnitId)

/-- `validateConversions` (main.ts): for every edge, look for its
reverse; count the edge valid when the product of the two multipliers is
within 0.01 of 1, otherwise count an issue (inverse mismatch or missing
reverse).  It only returns the two counters — it is total and its result
is never used to gate persistence. -/
def validateConversions (conversions : List ConversionEquation) : ℕ × ℕ :=
  conversions.foldl
    (fun acc conv =>
      match reverseOf conversions conv with
      | some reverse =>
        if |conv.multiplier * reverse.multiplier - 1| < 1/100
          then (acc.1 + 1, acc.2) else (acc.1, acc.2 + 1)
      | none => (acc.1, acc.2 + 1))
    (0, 0)

/-- The per-edge verdict implicit in the loop body. -/
def countsValid (conversions : List ConversionEquation)
    (conv : ConversionEquation) : Bool :=
  match reverseOf conversions conv with
  | some reverse =>
    decide (|conv.multiplier * reverse.multiplier - 1| < 1/100)
  | none => false

/-- The loop body increments the valid counter precisely on the edges
`countsValid` accepts. -/
theorem validate_step_eq (convs : List ConversionEquation) (acc : ℕ × ℕ)
    (c : ConversionEquation) :
    (match reverseOf convs c with
     | some reverse =>
       if |c.multiplier * reverse.multiplier - 1| < 1/100
         then (acc.1 + 1, acc.2) else (acc.1, acc.2 + 1)
     | none => (acc.1, acc.2 + 1)) =
    (if countsValid convs c then (acc.1 + 1, acc.2)
      else (acc.1, acc.2 + 1)) := by
  unfold countsValid
  cases hrev : reverseOf convs c with
  | none => simp
  | some r =>
    by_cases htol : |c.multiplier * r.multiplier - 1| < 1/100 <;>
      simp [htol]

theorem validateConversions_eq_countP (convs : List ConversionEquation) :
    validateConversions convs =
      (convs.countP (countsValid convs),
       convs.countP (fun c => !countsValid convs c)) := by
  unfold validateConversions
  have haux : ∀ (l : List ConversionEquation) (acc : ℕ × ℕ),
      (l.foldl (fun acc conv =>
        match reverseOf convs conv with
        | some reverse =>
          if |conv.multiplier * reverse.multiplier - 1| < 1/100
            then (acc.1 + 1, acc.2) else (acc.1, acc.2 + 1)
        | none => (acc.1, acc.2 + 1)) acc) =
      (acc.1 + l.countP (countsValid convs),
       acc.2 + l.countP (fun c => !countsValid convs c)) := by
    intro l
    induction l with
    | nil => intro acc; simp
    | cons c l ih =>
      intro acc
      rw [List.foldl_cons, validate_step_eq]
      cases hcv : countsValid convs c with
      | true =>
        rw [if_pos rfl, ih]
        simp only [List.countP_cons, hcv]
        simp
        omega
      | false =>
        rw [if_neg (by simp), ih]
        simp only [List.countP_cons, hcv]
        simp
        omega
  rw [haux convs (0, 0)]
  simp

/-- **C4.**  The validator's first counter counts exactly the edges whose
(first) reverse exists with |m·m' − 1| < 0.01; the second counts all
other edges (mismatch or missing reverse); the counters sum to the list
length, so every edge is classified and the validator never aborts; and
under the one-equation-per-ordered-pair invariant, an edge counts valid
precisely when some reverse edge with product within tolerance exists,
while an edge with no reverse never counts valid. -/
theorem consistency_validator_counts (convs : List ConversionEquation) :
    (validateConversions convs).1 = convs.countP (countsValid convs) ∧
    (validateConversions convs).2 =
      convs.countP (fun c => !countsValid convs c) ∧
    (validateConversions convs).1 + (validateConversions convs).2 =
      convs.length ∧
    ((convs.map convPair).Nodup →
      ∀ conv ∈ convs,
        (countsValid convs conv = true ↔
          ∃ r ∈ convs, r.fromUnitId = conv.toUnitId ∧
            r.toUnitId = conv.fromUnitId ∧
            |conv.multiplier * r.multiplier - 1| < 1/100) ∧
        (reverseOf convs conv = none → countsValid convs conv = false)) := by
  have hc := validateConversions_eq_countP convs
  refine ⟨by rw [hc], by rw [hc], ?_, ?_⟩
  · rw [hc]
    have h1 : convs.countP (fun c => !countsValid convs c) =
        convs.countP (fun c => decide (¬(countsValid convs c = true))) := by
      refine List.countP_congr (fun c _ => ?_)
      cases countsValid convs c <;> simp
    simp only [h1]
    exact (List.length_eq_countP_add_countP
      (fun c => countsValid convs c) (l := convs)).symm
  · intro hnd conv hconv
    constructor
    · constructor
      · intro hcv
        unfold countsValid at hcv
        cases hrev : reverseOf convs conv with
        | none => rw [hrev] at hcv; cases hcv
        | some r =>
          rw [hrev] at hcv
          have hr := List.mem_of_find?_eq_some hrev
          have hp := List.find?_some hrev
          simp only [Bool.and_eq_true, beq_iff_eq] at hp
          exact ⟨r, hr, hp.1, hp.2, by simpa using hcv⟩
      · rintro ⟨r, hr, h1, h2, htol⟩
        unfold countsValid
        cases hrev : reverseOf convs conv with
        | none =>
          exfalso
          have := List.find?_eq_none.mp hrev r hr
          simp [h1, h2] at this
        | some r' =>
          have hr' := List.mem_of_find?_eq_some hrev
          have hp := List.find?_some hrev
          simp only [Bool.and_eq_true, beq_iff_eq] at hp
          have : r' = r := by
            refine List.inj_on_of_nodup_map hnd hr' hr ?_
            unfold convPair
            rw [hp.1, hp.2, h1, h2]
          subst this
          simpa using htol
    · intro hrev
      unfold countsValid
      rw [hrev]

/-- Witness: the two-edge list A→B (×2), B→A (×1/2): both edges count
valid (2·(1/2) = 1), the counters sum to the length 2, and the
characterization applies at edge A→B with reverse B→A. -/
theorem consistency_validator_counts_witness :
    countsValid [edgeAB, edgeBA] edgeAB = true ∧
    (validateConversions [edgeAB, edgeBA]).1 +
      (validateConversions [edgeAB, edgeBA]).2 = 2 := by
  have h := consistency_validator_counts [edgeAB, edgeBA]
  refine ⟨(h.2.2.2 (by decide) edgeAB (by with_unfolding_all decide)).1.mpr
    ⟨edgeBA, by with_unfolding_all decide, by decide, by decide,
      by with_unfolding_all decide⟩, h.2.2.1⟩

/-! ### C7: the unit linker -/

/-- The single disjunctive predicate of `findUnitBySymbol`
(dist/postprocess/linkUnits.js): exact or case-insensitive symbol match,
or exact or case-insensitive abbreviation match. -/
def unitMatches (symbol : String) (u : MepUnit) : Bool :=
  u.symbol == symbol || u.symbol.toLower == symbol.toLower ||
    u.abbreviations.any
      (fun abbr => abbr == symbol || abbr.toLower == symbol.toLower)

/-- `findUnitBySymbol(symbol, units)`: falsy (empty) references resolve
to none; otherwise one `find` pass with the disjunctive predicate. -/
def findUnitBySymbol (symbol : String) (units : List MepUnit) :
    Option MepUnit :=
  if symbol = "" then none
  else units.find? (unitMatches symbol)

def unitGX : MepUnit := ⟨"i1", "x", "unit x", ["GPM"], none⟩
def unitGPM : MepUnit := ⟨"i2", "GPM", "gallons per minute", [], none⟩

/-- **C7 counterexample.**  Lookup "GPM" over [unitGX, unitGPM]: unitGPM
is the only unit whose symbol equals the reference exactly, but the
linker returns unitGX, which matches only through its abbreviation list —
the four criteria are tested in one pass with no precedence, not in the
claimed tiers. -/
theorem unit_linker_counterexample :
    findUnitBySymbol "GPM" [unitGX, unitGPM] = some unitGX ∧
    ¬unitGX.symbol = "GPM" ∧ unitGPM.symbol = "GPM" ∧
    unitGPM ∈ [unitGX, unitGPM] := by
  with_unfolding_all decide

/-- `find?` returns an element iff it is the first satisfying one. -/
theorem find?_eq_some_iff_first {α : Type} (p : α → Bool) (l : List α)
    (a : α) :
    l.find? p = some a ↔
      p a = true ∧ ∃ l1 l2, l = l1 ++ a :: l2 ∧ ∀ x ∈ l1, p x = false := by
  induction l with
  | nil => simp
  | cons b l ih =>
    cases hb : p b with
    | true =>
      rw [List.find?_cons_of_pos l hb]
      constructor
      · intro h
        injection h with h
        subst h
        exact ⟨hb, [], l, rfl, fun x hx => absurd hx (List.not_mem_nil x)⟩
      · rintro ⟨hpa, l1, l2, heq, hfirst⟩
        cases l1 with
        | nil =>
          rw [List.nil_append] at heq
          injection heq with h1 h2
          rw [h1]
        | cons c l1 =>
          rw [List.cons_append] at heq
          injection heq with h1 h2
          have := hfirst c (List.mem_cons_self c l1)
          rw [← h1, hb] at this
          cases this
    | false =>
      rw [List.find?_cons_of_neg l (by simp [hb])]
      rw [ih]
      constructor
      · rintro ⟨hpa, l1, l2, rfl, hfirst⟩
        refine ⟨hpa, b :: l1, l2, rfl, fun x hx => ?_⟩
        rcases List.mem_cons.mp hx with rfl | hx
        · exact hb
        · exact hfirst x hx
      · rintro ⟨hpa, l1, l2, heq, hfirst⟩
        cases l1 with
        | nil =>
          rw [List.nil_append] at heq
          injection heq with h1 h2
          rw [← h1, hb] at hpa
          cases hpa
        | cons c l1 =>
          rw [List.cons_append] at heq
          injection heq with h1 h2
          exact ⟨hpa, l1, l2, h2, fun x hx =>
            hfirst x (List.mem_cons_of_mem c hx)⟩

/-- The Boolean predicate unfolded to a proposition. -/
theorem unitMatches_iff (symbol : String) (u : MepUnit) :
    unitMatches symbol u = true ↔
      (u.symbol = symbol ∨ u.symbol.toLower = symbol.toLower ∨
        ∃ a ∈ u.abbreviations,
          a = symbol ∨ a.toLower = symbol.toLower) := by
  unfold unitMatches
  simp [List.any_eq_true, or_assoc]

def unitGPMex : MepUnit :=
  ⟨"ug", "GPM", "gallons per minute", ["gal/min"], none⟩

/-- **C7 (amended).**  `findUnitBySymbol` resolves a nonempty reference
to the first unit satisfying ANY of the four criteria — symbol equal
exactly or case-insensitively, or abbreviation containing the reference
exactly or case-insensitively — in a single pass with no precedence
between the criteria; an empty reference, or one matching no unit,
resolves to none.  The spec's example unit still behaves as claimed:
"gpm", "GPM" and "gal/min" resolve to it and "L/min" to none. -/
theorem unit_linker_amended :
    (∀ (symbol : String) (units : List MepUnit) (u : MepUnit),
      findUnitBySymbol symbol units = some u ↔
        ¬symbol = "" ∧
        (u.symbol = symbol ∨ u.symbol.toLower = symbol.toLower ∨
          ∃ a ∈ u.abbreviations,
            a = symbol ∨ a.toLower = symbol.toLower) ∧
        ∃ l1 l2, units = l1 ++ u :: l2 ∧
          ∀ v ∈ l1, ¬(v.symbol = symbol ∨ v.symbol.toLower = symbol.toLower ∨
            ∃ a ∈ v.abbreviations,
              a = symbol ∨ a.toLower = symbol.toLower)) ∧
    (∀ (symbol : String) (units : List MepUnit),
      findUnitBySymbol symbol units = none ↔
        symbol = "" ∨ ∀ u ∈ units,
          ¬(u.symbol = symbol ∨ u.symbol.toLower = symbol.toLower ∨
            ∃ a ∈ u.abbreviations,
              a = symbol ∨ a.toLower = symbol.toLower)) ∧
    (findUnitBySymbol "gpm" [unitGPMex] = some unitGPMex ∧
      findUnitBySymbol "GPM" [unitGPMex] = some unitGPMex ∧
      findUnitBySymbol "gal/min" [unitGPMex] = some unitGPMex ∧
      findUnitBySymbol "L/min" [unitGPMex] = none) := by
  refine ⟨?_, ?_, by with_unfolding_all decide⟩
  · intro symbol units u
    unfold findUnitBySymbol
    by_cases hs : symbol = ""
    · rw [if_pos hs]
      constructor
      · intro h; cases h
      · rintro ⟨hne, _⟩; exact absurd hs hne
    · rw [if_neg hs, find?_eq_some_iff_first]
      constructor
      · rintro ⟨hpa, l1, l2, rfl, hfirst⟩
        refine ⟨hs, (unitMatches_iff symbol u).mp hpa, l1, l2, rfl, ?_⟩
        intro v hv hprop
        have hb := hfirst v hv
        rw [(unitMatches_iff symbol v).mpr hprop] at hb
        cases hb
      · rintro ⟨hne, hprop, l1, l2, rfl, hfirst⟩
        refine ⟨(unitMatches_iff symbol u).mpr hprop, l1, l2, rfl, ?_⟩
        intro v hv
        cases hmv : unitMatches symbol v with
        | false => rfl
        | true =>
          exact absurd ((unitMatches_iff symbol v).mp hmv) (hfirst v hv)
  · intro symbol units
    unfold findUnitBySymbol
    by_cases hs : symbol = ""
    · rw [if_pos hs]
      simp [hs]
    · rw [if_neg hs, List.find?_eq_none]
      constructor
      · intro h
        refine Or.inr (fun u hu hprop => ?_)
        have := h u hu
        exact this ((unitMatches_iff symbol u).mpr hprop)
      · rintro (h | h)
        · exact absurd h hs
        · intro u hu hm
          exact h u hu ((unitMatches_iff symbol u).mp hm)

/-- Witness: the amended C7 characterization applied at the lookup
"GPM" over the single spec-example unit. -/
theorem unit_linker_amended_witness :
    findUnitBySymbol "GPM" [unitGPMex] = some unitGPMex :=
  (unit_linker_amended.1 "GPM" [unitGPMex] unitGPMex).mpr
    ⟨by decide, Or.inl rfl, [], [], rfl,
      fun v hv => absurd hv (List.not_mem_nil v)⟩

/-! ### C9: checkpoint loading falls back to a fresh state -/

/-- The shape of a parsed checkpoint JSON document; only
`classificationComplete` is guarded by the code, so only that field is
optional here. -/
structure RawCheckpoint where
  classificationComplete : Option Bool
  groupsClassified : List (String × List String)
  conversionsGroupsCompleted : List String
  currentConversionGroupId : Option String
  unitsCompleted : List String
  lastUpdated : String
deriving DecidableEq, Repr

/-- The observable outcome of `existsSync` + `readFileSync` +
`JSON.parse` on the checkpoint file. -/
inductive CheckpointRead : Type
  | missing
  | readError
  | parseError
  | parsed (j : RawCheckpoint)
deriving DecidableEq, Repr

/-- The fresh initial checkpoint state (`now` models
`new Date().toISOString()`). -/
def freshCheckpoint (now : String) : Checkpoint :=
  ⟨false, [], [], none, [], now⟩

/-- `loadCheckpoint` (dist/postprocess, generateCustomConversions): a
missing file, a read error, unparsable JSON (both land in the empty
`catch`), or a parsed document without the `classificationComplete`
field all yield the fresh initial state; only a parsed document carrying
the field is returned as the checkpoint. -/
def loadCheckpoint (read : CheckpointRead) (now : String) : Checkpoint :=
  match read with
  | CheckpointRead.missing => freshCheckpoint now
  | CheckpointRead.readError => freshCheckpoint now
  | CheckpointRead.parseError => freshCheckpoint now
  | CheckpointRead.parsed j =>
    match j.classificationComplete with
    | none => freshCheckpoint now
    | some b =>
      ⟨b, j.groupsClassified, j.conversionsGroupsCompleted,
        j.currentConversionGroupId, j.unitsCompleted, j.lastUpdated⟩

/-- **C9.**  `loadCheckpoint` returns the fresh initial state — with
`classificationComplete = false`, empty `groupsClassified`, empty
`conversionsGroupsCompleted`, no `currentConversionGroupId` and empty
`unitsCompleted` — whenever the checkpoint file is missing, unreadable,
unparsable, or parsed without the `classificationComplete` field; it
never throws (it is a total function). -/
theorem checkpoint_fallback_fresh (now : String) :
    loadCheckpoint CheckpointRead.missing now = freshCheckpoint now ∧
    loadCheckpoint CheckpointRead.readError now = freshCheckpoint now ∧
    loadCheckpoint CheckpointRead.parseError now = freshCheckpoint now ∧
    (∀ j : RawCheckpoint, j.classificationComplete = none →
      loadCheckpoint (CheckpointRead.parsed j) now = freshCheckpoint now) ∧
    (freshCheckpoint now).classificationComplete = false ∧
    (freshCheckpoint now).groupsClassified = [] ∧
    (freshCheckpoint now).conversionsGroupsCompleted = [] ∧
    (freshCheckpoint now).currentConversionGroupId = none ∧
    (freshCheckpoint now).unitsCompleted = [] := by
  refine ⟨rfl, rfl, rfl, ?_, rfl, rfl, rfl, rfl, rfl⟩
  intro j hj
  simp [loadCheckpoint, hj]

/-- Witness: a parsed checkpoint document lacking
`classificationComplete` yields the fresh state. -/
theorem checkpoint_fallback_fresh_witness :
    loadCheckpoint
      (CheckpointRead.parsed ⟨none, [("Flow", ["u1"])], ["g1"],
        some "g2", ["u9"], "old"⟩) "t1" = freshCheckpoint "t1" :=
  (checkpoint_fallback_fresh "t1").2.2.2.1
    ⟨none, [("Flow", ["u1"])], ["g1"], some "g2", ["u9"], "old"⟩ rfl

/-! ### C6: two-stage duplicate detection
(`cleanupDuplicates` in dist/postprocess) -/

/-- A spec entry (the fields the duplicate detector reads). -/
structure SpecType where
  id : String
  primaryName : String
  description : String
  domain : String
deriving DecidableEq, Repr

/-- A Stage-1 candidate pair, as pushed by `findSemanticDuplicates`. -/
structure DuplicateCandidate where
  spec1 : SpecType
  spec2 : SpecType
  stringSimilarity : ℚ
deriving DecidableEq, Repr

/-- One entry of the Oracle's `confirmDuplicates` answer. -/
structure OracleVerdict where
  pairIndex : ℕ
  areDuplicates : Bool
  similarity : ℚ
  reason : String
deriving DecidableEq, Repr

/-- A recorded duplicate group. -/
structure DuplicateGroup where
  similarity : ℚ
  reason : String
  specTypes : List SpecType
deriving DecidableEq, Repr

/-- Maximal non-whitespace chunks of a character list. -/
def chunksAux : List Char → List Char → List String
  | [], cur => if cur.isEmpty then [] else [String.mk cur.reverse]
  | c :: rest, cur =>
    if c.isWhitespace then
      (if cur.isEmpty then chunksAux rest []
       else String.mk cur.reverse :: chunksAux rest [])
    else chunksAux rest (c :: cur)

/-- JavaScript `s.split(/\s+/)`: whitespace runs separate tokens; a
leading run (or an empty string) contributes a leading empty token and a
trailing run a trailing one. -/
def jsSplitWs (s : String) : List String :=
  (if s.toList = [] ∨ (s.toList.head?.elim false Char.isWhitespace)
    then [""] else []) ++
  chunksAux s.toList [] ++
  (if s.toList.getLast?.elim false Char.isWhitespace then [""] else [])

/-- `calculateStringSimilarity`: the Jaccard index (in percent) of the
lower-cased, whitespace-tokenized word sets of the two strings. -/
def calculateStringSimilarity (str1 str2 : String) : ℚ :=
  ((((jsSplitWs str1.toLower).dedup.filter
      (fun w => (jsSplitWs str2.toLower).dedup.contains w)).length : ℚ) /
    (((jsSplitWs str1.toLower).dedup ++
      (jsSplitWs str2.toLower).dedup).dedup.length : ℚ)) * 100

/-- Key enumeration order of a JS object built by insertion: each
distinct domain once, at its first occurrence. -/
def dedupFirst : List String → List String
  | [] => []
  | d :: rest => d :: dedupFirst (rest.filter (fun x => x ≠ d))
termination_by l => l.length
decreasing_by
  simp_wf
  exact Nat.lt_succ_of_le (List.length_filter_le _ _)

/-- The ordered pairs (i, j), i before j, of a list — the double loop
`for i; for j = i+1`. -/
def pairsOf {α : Type} : List α → List (α × α)
  | [] => []
  | x :: xs => (xs.map (fun y => (x, y))) ++ pairsOf xs

/-- Stage 1 of `findSemanticDuplicates`: partition by domain, compare
every pair inside a partition, keep those at ≥ 30% lexical
similarity. -/
def stage1Candidates (specs : List SpecType) : List DuplicateCandidate :=
  (dedupFirst (specs.map (fun s => s.domain))).flatMap fun d =>
    (pairsOf (specs.filter (fun s => s.domain == d))).filterMap fun p =>
      if 30 ≤ calculateStringSimilarity p.1.primaryName p.2.primaryName
        then some ⟨p.1, p.2,
          calculateStringSimilarity p.1.primaryName p.2.primaryName⟩
        else none

/-- Stage 2 of `batchDetectDuplicates`, one batch: record a group for
every verdict that is positive or scores at least 85.  An out-of-range
`pairIndex` on a recording verdict models the thrown `TypeError` that
the surrounding catch turns into an abort of the rest of the batch. -/
def processVerdicts (batch : List DuplicateCandidate) :
    List OracleVerdict → List DuplicateGroup
  | [] => []
  | r :: rest =>
    if r.areDuplicates = true ∨ 85 ≤ r.similarity then
      match batch[r.pairIndex]? with
      | some cand =>
        ⟨r.similarity, r.reason, [cand.spec1, cand.spec2]⟩ ::
          processVerdicts batch rest
      | none => []
    else processVerdicts batch rest

theorem dedupFirst_mem_aux :
    ∀ (n : ℕ) (l : List String), l.length ≤ n →
      ∀ x, x ∈ dedupFirst l ↔ x ∈ l := by
  intro n
  induction n with
  | zero =>
    intro l hl x
    rw [Nat.le_zero, List.length_eq_zero] at hl
    subst hl
    simp [dedupFirst]
  | succ n ih =>
    intro l hl x
    cases l with
    | nil => simp [dedupFirst]
    | cons d rest =>
      rw [List.length_cons, Nat.succ_le_succ_iff] at hl
      have hrec := ih (rest.filter (fun y => y ≠ d))
        (le_trans (List.length_filter_le _ _) hl)
      rw [show dedupFirst (d :: rest) =
        d :: dedupFirst (rest.filter (fun y => y ≠ d)) from by
          rw [dedupFirst]]
      constructor
      · intro hx
        rcases List.mem_cons.mp hx with rfl | hx
        · exact List.mem_cons_self _ _
        · have := (List.mem_filter.mp ((hrec x).mp hx)).1
          exact List.mem_cons_of_mem _ this
      · intro hx
        rcases List.mem_cons.mp hx with rfl | hx
        · exact List.mem_cons_self _ _
        · by_cases hxd : x = d
          · subst hxd; exact List.mem_cons_self _ _
          · refine List.mem_cons_of_mem _ ((hrec x).mpr ?_)
            exact List.mem_filter.mpr ⟨hx, by simp [hxd]⟩

theorem dedupFirst_mem (l : List String) (x : String) :
    x ∈ dedupFirst l ↔ x ∈ l :=
  dedupFirst_mem_aux l.length l le_rfl x

theorem pairsOf_sublist_mem {α : Type} (a b : α) (l : List α)
    (h : [a, b].Sublist l) : (a, b) ∈ pairsOf l := by
  induction l with
  | nil => cases h
  | cons x xs ih =>
    cases h with
    | cons _ h' =>
      exact List.mem_append.mpr (Or.inr (ih h'))
    | cons₂ _ h' =>
      have hb : b ∈ xs := List.singleton_sublist.mp h'
      exact List.mem_append.mpr (Or.inl (List.mem_map.mpr ⟨b, hb, rfl⟩))

theorem pairsOf_mem_imp {α : Type} (l : List α) (p : α × α)
    (hp : p ∈ pairsOf l) : p.1 ∈ l ∧ p.2 ∈ l := by
  induction l with
  | nil => cases hp
  | cons x xs ih =>
    rcases List.mem_append.mp hp with h | h
    · obtain ⟨y, hy, rfl⟩ := List.mem_map.mp h
      exact ⟨List.mem_cons_self _ _, List.mem_cons_of_mem _ hy⟩
    · obtain ⟨h1, h2⟩ := ih h
      exact ⟨List.mem_cons_of_mem _ h1, List.mem_cons_of_mem _ h2⟩

theorem stage1_mem_iff (specs : List SpecType) (a b : SpecType)
    (hsub : [a, b].Sublist specs) :
    (∃ c ∈ stage1Candidates specs, c.spec1 = a ∧ c.spec2 = b) ↔
      (a.domain = b.domain ∧
        30 ≤ calculateStringSimilarity a.primaryName b.primaryName) := by
  constructor
  · rintro ⟨c, hc, h1, h2⟩
    unfold stage1Candidates at hc
    obtain ⟨d, hd, hc2⟩ := List.mem_flatMap.mp hc
    obtain ⟨p, hp, heq⟩ := List.mem_filterMap.mp hc2
    by_cases hcond :
        30 ≤ calculateStringSimilarity p.1.primaryName p.2.primaryName
    · rw [if_pos hcond] at heq
      injection heq with heq
      subst heq
      simp only at h1 h2
      subst h1
      subst h2
      obtain ⟨hp1, hp2⟩ := pairsOf_mem_imp _ _ hp
      have hd1 := (List.mem_filter.mp hp1).2
      have hd2 := (List.mem_filter.mp hp2).2
      rw [beq_iff_eq] at hd1 hd2
      exact ⟨hd1.trans hd2.symm, hcond⟩
    · rw [if_neg hcond] at heq
      cases heq
  · rintro ⟨hdom, hsim⟩
    have ha : a ∈ specs := hsub.subset (by simp)
    refine ⟨⟨a, b, calculateStringSimilarity a.primaryName b.primaryName⟩,
      ?_, rfl, rfl⟩
    unfold stage1Candidates
    refine List.mem_flatMap.mpr ⟨a.domain,
      (dedupFirst_mem _ _).mpr (List.mem_map.mpr ⟨a, ha, rfl⟩), ?_⟩
    refine List.mem_filterMap.mpr ⟨(a, b), ?_, ?_⟩
    · apply pairsOf_sublist_mem
      have hfeq : List.filter (fun s => s.domain == a.domain) [a, b] =
          [a, b] := by
        rw [List.filter_eq_self]
        intro s hs
        rcases List.mem_cons.mp hs with rfl | hs
        · simp
        · rw [List.mem_singleton] at hs
          subst hs
          simp [hdom]
      exact hfeq ▸ List.Sublist.filter _ hsub
    · rw [if_pos hsim]

theorem processVerdicts_sound (batch : List DuplicateCandidate)
    (results : List OracleVerdict) :
    ∀ g ∈ processVerdicts batch results,
      ∃ r ∈ results, (r.areDuplicates = true ∨ 85 ≤ r.similarity) ∧
        ∃ cand, batch[r.pairIndex]? = some cand ∧
          g = ⟨r.similarity, r.reason, [cand.spec1, cand.spec2]⟩ := by
  induction results with
  | nil => intro g hg; simp [processVerdicts] at hg
  | cons r rest ih =>
    intro g hg
    simp only [processVerdicts] at hg
    by_cases hcond : r.areDuplicates = true ∨ 85 ≤ r.similarity
    · rw [if_pos hcond] at hg
      cases hidx : batch[r.pairIndex]? with
      | none => rw [hidx] at hg; cases hg
      | some cand =>
        rw [hidx] at hg
        rcases List.mem_cons.mp hg with rfl | hg
        · exact ⟨r, List.mem_cons_self _ _, hcond, cand, hidx, rfl⟩
        · obtain ⟨r', hr', hc, cand', hcand', hgeq⟩ := ih g hg
          exact ⟨r', List.mem_cons_of_mem _ hr', hc, cand', hcand', hgeq⟩
    · rw [if_neg hcond] at hg
      obtain ⟨r', hr', hc, cand', hcand', hgeq⟩ := ih g hg
      exact ⟨r', List.mem_cons_of_mem _ hr', hc, cand', hcand', hgeq⟩

theorem processVerdicts_complete (batch : List DuplicateCandidate)
    (results : List OracleVerdict)
    (hvalid : ∀ r ∈ results,
      (r.areDuplicates = true ∨ 85 ≤ r.similarity) →
      r.pairIndex < batch.length) :
    ∀ r ∈ results, (r.areDuplicates = true ∨ 85 ≤ r.similarity) →
      ∀ cand, batch[r.pairIndex]? = some cand →
        (⟨r.similarity, r.reason, [cand.spec1, cand.spec2]⟩ :
            DuplicateGroup) ∈
          processVerdicts batch results := by
  induction results with
  | nil => intro r hr; cases hr
  | cons r0 rest ih =>
    intro r hr hcond cand hcand
    simp only [processVerdicts]
    rcases List.mem_cons.mp hr with rfl | hr
    · rw [if_pos hcond, hcand]
      exact List.mem_cons_self _ _
    · by_cases hcond0 : r0.areDuplicates = true ∨ 85 ≤ r0.similarity
      · rw [if_pos hcond0]
        have hidx0 := hvalid r0 (List.mem_cons_self _ _) hcond0
        rw [List.getElem?_eq_getElem hidx0]
        refine List.mem_cons_of_mem _ ?_
        exact ih (fun r' h' c' => hvalid r' (List.mem_cons_of_mem _ h') c')
          r hr hcond cand hcand
      · rw [if_neg hcond0]
        exact ih (fun r' h' c' => hvalid r' (List.mem_cons_of_mem _ h') c')
          r hr hcond cand hcand

theorem processVerdicts_none (batch : List DuplicateCandidate)
    (results : List OracleVerdict)
    (h : ∀ r ∈ results, ¬(r.areDuplicates = true ∨ 85 ≤ r.similarity)) :
    processVerdicts batch results = [] := by
  induction results with
  | nil => rfl
  | cons r rest ih =>
    simp only [processVerdicts]
    rw [if_neg (h r (List.mem_cons_self _ _))]
    exact ih (fun r' h' => h r' (List.mem_cons_of_mem _ h'))

/-- **C6.**  Stage 1: a pair of spec entries (in list order) becomes a
candidate iff they share a domain and the Jaccard index of their
lower-cased, whitespace-tokenized primary-name word sets is at least
30%.  Stage 2: every recorded DuplicateGroup comes from a verdict with
`areDuplicates` true or similarity ≥ 85 on a batch candidate; every such
verdict (with in-range indices on the batch) records its group; and a
batch of verdicts none of which qualifies records nothing. -/
theorem duplicate_detection_two_stage :
    (∀ (specs : List SpecType) (a b : SpecType), [a, b].Sublist specs →
      ((∃ c ∈ stage1Candidates specs, c.spec1 = a ∧ c.spec2 = b) ↔
        (a.domain = b.domain ∧
          30 ≤ calculateStringSimilarity a.primaryName b.primaryName))) ∧
    (∀ (batch : List DuplicateCandidate) (results : List OracleVerdict),
      ∀ g ∈ processVerdicts batch results,
        ∃ r ∈ results, (r.areDuplicates = true ∨ 85 ≤ r.similarity) ∧
          ∃ cand, batch[r.pairIndex]? = some cand ∧
            g = ⟨r.similarity, r.reason, [cand.spec1, cand.spec2]⟩) ∧
    (∀ (batch : List DuplicateCandidate) (results : List OracleVerdict),
      (∀ r ∈ results, (r.areDuplicates = true ∨ 85 ≤ r.similarity) →
        r.pairIndex < batch.length) →
      ∀ r ∈ results, (r.areDuplicates = true ∨ 85 ≤ r.similarity) →
        ∀ cand, batch[r.pairIndex]? = some cand →
          (⟨r.similarity, r.reason, [cand.spec1, cand.spec2]⟩ :
              DuplicateGroup) ∈ processVerdicts batch results) ∧
    (∀ (batch : List DuplicateCandidate) (results : List OracleVerdict),
      (∀ r ∈ results, ¬(r.areDuplicates = true ∨ 85 ≤ r.similarity)) →
      processVerdicts batch results = []) :=
  ⟨stage1_mem_iff, processVerdicts_sound, processVerdicts_complete,
    processVerdicts_none⟩

def specCool : SpecType :=
  ⟨"s1", "Cooling Capacity", "capacity spec", "HVAC"⟩

def specTotalCool : SpecType :=
  ⟨"s2", "Total Cooling Capacity", "total capacity spec", "HVAC"⟩

def candCT : DuplicateCandidate := ⟨specCool, specTotalCool, 66⟩

/-- Witness: "Cooling Capacity" and "Total Cooling Capacity" (same
domain, Jaccard 2/3) become a candidate; a verdict with similarity 90
records a group even with `areDuplicates` false; a verdict with
similarity 40 and `areDuplicates` false records nothing. -/
theorem duplicate_detection_two_stage_witness :
    (∃ c ∈ stage1Candidates [specCool, specTotalCool],
      c.spec1 = specCool ∧ c.spec2 = specTotalCool) ∧
    (⟨90, "same property", [specCool, specTotalCool]⟩ : DuplicateGroup) ∈
      processVerdicts [candCT] [⟨0, false, 90, "same property"⟩] ∧
    processVerdicts [candCT] [⟨0, false, 40, "different"⟩] = [] := by
  have h := duplicate_detection_two_stage
  refine ⟨(h.1 [specCool, specTotalCool] specCool specTotalCool
      (List.Sublist.refl _)).mpr ⟨rfl, by with_unfolding_all decide⟩,
    ?_, ?_⟩
  · exact h.2.2.1 [candCT] [⟨0, false, 90, "same property"⟩]
      (by with_unfolding_all decide) ⟨0, false, 90, "same property"⟩
      (List.mem_cons_self _ _) (by with_unfolding_all decide) candCT rfl
  · exact h.2.2.2 [candCT] [⟨0, false, 40, "different"⟩]
      (by with_unfolding_all decide)
